import Mathlib

/-!
# Verification of the i18n-app translation reconciliation engine

A shallow embedding of the flatten / unflatten / diff / merge logic of the
`i18n-app` repository (`src/translation.rs` and `src/service.rs`) together
with proofs of the specified properties.

Modelling conventions:
* `serde_json::Value` is embedded as the inductive `Json`; JSON numbers are
  modelled as integers (no claim concerns float formatting).
* `serde_json::Map` and `HashMap<String, String>` are embedded as insertion
  ordered association lists (`List (String × α)`) with lookup returning the
  binding of the first matching key and insertion replacing an existing
  binding in place (appending fresh keys at the end).
* Rust's `str::split('.')` is embedded character by character as `splitDot`.
* The composite test `s.trim().is_empty()` is embedded as `trimEmpty`
  (a string trims to empty exactly when all of its characters are
  whitespace).
* Network and filesystem effects are embedded by passing the per-language
  outcomes of the effectful calls as explicit input lists to pure fold
  functions that mirror the control flow of the Rust orchestration loops.
-/

set_option linter.unusedVariables false

namespace I18nApp

/-- Embedding of `serde_json::Value` (numbers as integers). -/
inductive Json where
  | str (s : String)
  | num (n : Int)
  | bool (b : Bool)
  | null
  | arr (items : List Json)
  | obj (fields : List (String × Json))

/-- First-match lookup in an association list; embeds `Map::get` /
`HashMap::get`. -/
def assocFind {α : Type} : List (String × α) → String → Option α
  | [], _ => none
  | (k, v) :: rest, key => if k = key then some v else assocFind rest key

/-- Insertion that replaces an existing binding in place and appends fresh
keys at the end; embeds `Map::insert` / `HashMap::insert` (insertion
ordered). -/
def assocInsert {α : Type} : List (String × α) → String → α → List (String × α)
  | [], key, v => [(key, v)]
  | (k, w) :: rest, key, v =>
      if k = key then (key, v) :: rest else (k, w) :: assocInsert rest key v

/-- The keys of an association list. -/
def assocKeys {α : Type} (l : List (String × α)) : List String := l.map (·.1)

/-- Key-uniqueness invariant of `serde_json::Map` and `HashMap`. -/
abbrev NodupKeys {α : Type} (l : List (String × α)) : Prop := (assocKeys l).Nodup

/-- A flat translation mapping; embeds `HashMap<String, String>`
(`TranslationFile::content`). -/
abbrev SMap := List (String × String)

/-- The fields of a JSON object; embeds `serde_json::Map<String, Value>`. -/
abbrev JMap := List (String × Json)

/-- Embeds `s.trim().is_empty()` for Rust strings: true exactly when every
character is whitespace (in particular on the empty string). -/
def trimEmpty (s : String) : Bool := s.data.all (fun c => c.isWhitespace)

mutual
/-- Embeds `serde_json::Value::to_string()` (compact serialization), used by
the `_` branch of `flatten_json_inner`.  Control-character escapes inside
strings are not modelled (no string reaches this branch in the source: the
`Value::String` arm is matched first). -/
def Json.render : Json → String
  | .str s => "\"" ++ s ++ "\""
  | .num n => toString n
  | .bool b => if b then "true" else "false"
  | .null => "null"
  | .arr items => "[" ++ Json.renderItems items ++ "]"
  | .obj fields => "\x7b" ++ Json.renderFields fields ++ "\x7d"

/-- Comma-separated rendering of array elements. -/
def Json.renderItems : List Json → String
  | [] => ""
  | [x] => x.render
  | x :: rest => x.render ++ "," ++ Json.renderItems rest

/-- Comma-separated rendering of object fields. -/
def Json.renderFields : List (String × Json) → String
  | [] => ""
  | [(k, v)] => "\"" ++ k ++ "\":" ++ v.render
  | (k, v) :: rest => "\"" ++ k ++ "\":" ++ v.render ++ "," ++ Json.renderFields rest
end

/-- Key joining used by `flatten_json_inner`: `if prefix.is_empty() { key }
else { format!("{}.{}", prefix, key) }`. -/
def joinKey (pfx key : String) : String :=
  if pfx = "" then key else pfx ++ "." ++ key

mutual
/-- Embeds `flatten_json_inner` from `src/translation.rs`: objects recurse
with a dotted prefix, strings are inserted verbatim, every other value is
inserted via its serialization. -/
def flatten_json_inner : Json → String → SMap → SMap
  | .obj fields, pfx, m => flattenFields fields pfx m
  | .str s, pfx, m => assocInsert m pfx s
  | v, pfx, m => assocInsert m pfx v.render

/-- The object loop of `flatten_json_inner` (iteration over the fields of a
`serde_json::Map` in insertion order). -/
def flattenFields : List (String × Json) → String → SMap → SMap
  | [], _, m => m
  | (k, v) :: rest, pfx, m =>
      flattenFields rest pfx (flatten_json_inner v (joinKey pfx k) m)
end

/-- Embeds `flatten_json` from `src/translation.rs`. -/
def flatten_json (v : Json) : SMap := flatten_json_inner v "" []

/-- Embeds `get_missing_keys` from `src/translation.rs`: iterate over the
base content, collecting the keys that the other content lacks. -/
def missingGo : SMap → SMap → SMap → SMap
  | [], _, acc => acc
  | (k, v) :: rest, other, acc =>
      missingGo rest other
        (if (assocFind other k).isSome then acc else assocInsert acc k v)

/-- `get_missing_keys(base, other)` over the two `content` maps. -/
def get_missing_keys (baseC otherC : SMap) : SMap := missingGo baseC otherC []

/-! ## Unflattening (`TranslationService::save_translation_file`) -/

/-- Character-level worker for `splitDot`. -/
def splitDotAux : List Char → List Char → List String
  | [], acc => [String.mk acc.reverse]
  | c :: rest, acc =>
      if c = '.' then String.mk acc.reverse :: splitDotAux rest []
      else splitDotAux rest (c :: acc)

/-- Embeds Rust's `key.split('.')`: splits a string at every `'.'`
character; always returns at least one (possibly empty) piece. -/
def splitDot (s : String) : List String := splitDotAux s.data []

/-- Embeds the inner loop of `TranslationService::save_translation_file`
(`src/service.rs`): walk the path parts, materializing missing intermediate
objects via `entry(..).or_insert(Object(..))`; `as_object_mut()` returns
`None` — surfaced as the "Failed to create nested structure" error — when an
existing binding along the path is not an object.  The final part overwrites
whatever binding the key had with the string value. -/
def insertPath : JMap → List String → String → Option JMap
  | t, [last], v => some (assocInsert t last (.str v))
  | t, p :: rest, v =>
      match assocFind t p with
      | none =>
          (insertPath [] rest v).map (fun sub => assocInsert t p (.obj sub))
      | some (.obj sub) =>
          (insertPath sub rest v).map (fun sub2 => assocInsert t p (.obj sub2))
      | some _ => none
  | t, [], _ => some t  -- unreachable: `split('.')` never yields zero parts

/-- The outer loop of `save_translation_file`: insert every flat entry in
order, propagating a structure-conflict failure (`?`). -/
def unflattenGo : SMap → JMap → Option JMap
  | [], t => some t
  | (k, v) :: rest, t =>
      match insertPath t (splitDot k) v with
      | none => none
      | some t2 => unflattenGo rest t2

/-- The flat-to-nested conversion of `save_translation_file`, starting from
an empty `serde_json::Map`. -/
def unflatten (m : SMap) : Option JMap := unflattenGo m []

/-! ## Merging (`TranslationService::merge_json_content`) -/

/-- The second loop of `merge_json_content`: remote-only keys are added,
except that remote-only empty/whitespace strings are skipped. -/
def mergeRemoteOnly : List (String × Json) → List (String × Json) →
    List (String × Json) → List (String × Json)
  | [], _, acc => acc
  | (k, rv) :: rest, lm, acc =>
      mergeRemoteOnly rest lm
        (if (assocFind lm k).isSome then acc
         else
           match rv with
           | .str rs => if trimEmpty rs then acc else assocInsert acc k rv
           | _ => assocInsert acc k rv)

mutual
/-- Embeds `TranslationService::merge_json_content` (`src/service.rs`):
object/object pairs merge field-wise (local loop then remote-only loop);
an empty/whitespace remote string keeps the local value; any other remote
value wins. -/
def merge_json_content : Json → Json → Json
  | .obj lm, .obj rm => .obj (mergeRemoteOnly rm lm (mergeLocalKeys lm rm []))
  | lv, .str rs => if trimEmpty rs then lv else .str rs
  | _, rv => rv

/-- The inner `match (local_value, remote_value)` of the local loop of
`merge_json_content`: recurse when both sides are objects, keep local when
the remote string is empty/whitespace, otherwise take the remote value. -/
def mergeCommon : Json → Json → Json
  | .obj a, .obj b => merge_json_content (.obj a) (.obj b)
  | lv, .str rs => if trimEmpty rs then lv else .str rs
  | _, rv => rv

/-- The first loop of `merge_json_content`: every local key is bound, via
`mergeCommon`, against the remote binding when one exists; keys the remote
lacks keep the local value. -/
def mergeLocalKeys : List (String × Json) → List (String × Json) →
    List (String × Json) → List (String × Json)
  | [], _, acc => acc
  | (k, lv) :: rest, rm, acc =>
      mergeLocalKeys rest rm
        (match assocFind rm k with
          | some rv => assocInsert acc k (mergeCommon lv rv)
          | none => assocInsert acc k lv)
end

/-! ## Push upload delta (`TranslationService::push_translations`) -/

/-- The per-key collection loop of `push_translations` step 5
(`src/service.rs` lines 183–209): a key is uploaded when the cached remote
lacks it or holds an empty/whitespace value; differing non-empty remote
values are only logged. -/
def needUploadGo : SMap → SMap → SMap → SMap
  | [], _, acc => acc
  | (k, lv) :: rest, cached, acc =>
      needUploadGo rest cached
        (match assocFind cached k with
          | none => assocInsert acc k lv
          | some rv => if trimEmpty rv then assocInsert acc k lv else acc)

/-- The upload delta computed against a cached remote content map. -/
def computeNeedUpload (localC cachedC : SMap) : SMap :=
  needUploadGo localC cachedC []

/-- The payload `push_translations` submits for one language: the whole
local content when no cached remote exists (first-time upload), otherwise
the computed delta; `none` when the non-empty-delta check skips the
upload. -/
def uploadPayload (localC : SMap) (cached : Option SMap) : Option SMap :=
  match cached with
  | none => some localC
  | some c =>
      let need := computeNeedUpload localC c
      if need.isEmpty then none else some need

/-! ## Orchestration (`push_translations` / `sync_translations` loops)

The effectful per-language calls are embedded by passing their outcomes as
input lists; the folds below mirror the Rust control flow (`?` propagation
versus per-language tallying). -/

/-- Outcome of processing one language inside the `sync_translations` loop:
a successful download whose blob contains the language key counts as a
success; a missing remote file entry, a failed download, or a blob without
the language key each count as a failure. -/
inductive SyncOutcome where
  | synced
  | keyMissing
  | fetchFailed
  | noRemoteFile

/-- One iteration of the `sync_translations` tally. -/
def syncStep (acc : Nat × Nat) : SyncOutcome → Nat × Nat
  | .synced => (acc.1 + 1, acc.2)
  | _ => (acc.1, acc.2 + 1)

/-- The success/failure tally accumulated by the `sync_translations` loop. -/
def syncCounts (outs : List SyncOutcome) : Nat × Nat :=
  outs.foldl syncStep (0, 0)

/-- The result of `sync_translations` after its loop: the trailing
`ensure!(success_count > 0, ..)` fails — carrying the tally — exactly when
no language synced. -/
def sync_translations_result (outs : List SyncOutcome) :
    Except (Nat × Nat) (Nat × Nat) :=
  let c := syncCounts outs
  if c.1 > 0 then .ok c else .error c

/-- Input for one language of the `push_translations` upload loop: its local
content, the cached remote content (if any), and whether the API upload
call would succeed. -/
structure PushLang where
  content : SMap
  cached : Option SMap
  uploadOk : Bool

/-- The upload loop of `push_translations` (step 5): uploads are attempted
language by language and a failed upload aborts the whole run via `?`;
languages whose delta is empty are skipped without an API call. -/
def push_loop : List PushLang → Except Unit Unit
  | [] => .ok ()
  | p :: rest =>
      match uploadPayload p.content p.cached with
      | none => push_loop rest
      | some _ => if p.uploadOk then push_loop rest else .error ()

/-! ## Association-list lemmas -/

@[simp] theorem assocKeys_nil {α : Type} : assocKeys ([] : List (String × α)) = [] := rfl

@[simp] theorem assocKeys_cons {α : Type} (p : String × α) (l : List (String × α)) :
    assocKeys (p :: l) = p.1 :: assocKeys l := rfl

@[simp] theorem assocKeys_append {α : Type} (l1 l2 : List (String × α)) :
    assocKeys (l1 ++ l2) = assocKeys l1 ++ assocKeys l2 := by
  simp [assocKeys]

theorem assocFind_insert {α : Type} (m : List (String × α)) (k : String) (v : α)
    (key : String) :
    assocFind (assocInsert m k v) key = if k = key then some v else assocFind m key := by
  induction m with
  | nil => simp [assocInsert, assocFind]
  | cons p rest ih =>
      obtain ⟨k', w⟩ := p
      by_cases hk : k' = k
      · subst hk
        by_cases hkey : k' = key
        · simp [assocInsert, assocFind, hkey]
        · simp [assocInsert, assocFind, hkey]
      · by_cases hkey : k' = key
        · subst hkey
          have hne : ¬ k = k' := fun h => hk h.symm
          simp [assocInsert, assocFind, hk, hne]
        · simp [assocInsert, assocFind, hk, hkey, ih]

theorem assocInsert_fresh {α : Type} (m : List (String × α)) (k : String) (v : α)
    (h : ¬ k ∈ assocKeys m) : assocInsert m k v = m ++ [(k, v)] := by
  induction m with
  | nil => simp [assocInsert]
  | cons p rest ih =>
      obtain ⟨k', w⟩ := p
      have h1 : ¬ k' = k := by
        intro he; apply h; simp [he]
      have h2 : ¬ k ∈ assocKeys rest := by
        intro hm; apply h; simp [hm]
      simp [assocInsert, h1, ih h2]

theorem assocKeys_insert {α : Type} (m : List (String × α)) (k : String) (v : α) :
    assocKeys (assocInsert m k v) =
      if k ∈ assocKeys m then assocKeys m else assocKeys m ++ [k] := by
  induction m with
  | nil => simp [assocInsert]
  | cons p rest ih =>
      obtain ⟨k', w⟩ := p
      by_cases hk : k' = k
      · subst hk; simp [assocInsert]
      · have hne : ¬ k = k' := fun h => hk h.symm
        simp only [assocInsert, if_neg hk, assocKeys_cons, ih]
        by_cases hm : k ∈ assocKeys rest
        · simp [hm, hne]
        · simp [hm, hne]

theorem nodupKeys_insert {α : Type} (m : List (String × α)) (k : String) (v : α)
    (h : NodupKeys m) : NodupKeys (assocInsert m k v) := by
  unfold NodupKeys at *
  rw [assocKeys_insert]
  by_cases hm : k ∈ assocKeys m
  · simpa [hm] using h
  · simp only [hm, if_false]
    exact List.Nodup.append h (List.nodup_singleton k) (by simpa using hm)

theorem assocFind_eq_none {α : Type} (m : List (String × α)) (k : String) :
    assocFind m k = none ↔ ¬ k ∈ assocKeys m := by
  induction m with
  | nil => simp [assocFind]
  | cons p rest ih =>
      obtain ⟨k', w⟩ := p
      by_cases hk : k' = k
      · subst hk; simp [assocFind]
      · have hne : ¬ k = k' := fun h => hk h.symm
        simp [assocFind, hk, hne, ih]

theorem mem_of_assocFind {α : Type} (m : List (String × α)) (k : String) (v : α)
    (h : assocFind m k = some v) : (k, v) ∈ m := by
  induction m with
  | nil => simp [assocFind] at h
  | cons p rest ih =>
      obtain ⟨k', w⟩ := p
      by_cases hk : k' = k
      · subst hk; simp [assocFind] at h; simp [h]
      · simp [assocFind, hk] at h
        exact List.mem_cons_of_mem _ (ih h)

theorem assocFind_isSome {α : Type} (m : List (String × α)) (k : String) :
    (assocFind m k).isSome = true ↔ k ∈ assocKeys m := by
  cases hf : assocFind m k with
  | none =>
      simpa using (assocFind_eq_none m k).mp hf
  | some v =>
      simp only [Option.isSome_some, true_iff]
      have hmem : (k, v) ∈ m := mem_of_assocFind m k v hf
      exact List.mem_map_of_mem (fun x => x.1) hmem

theorem assocFind_of_mem {α : Type} (m : List (String × α)) (k : String) (v : α)
    (hnd : NodupKeys m) (hmem : (k, v) ∈ m) : assocFind m k = some v := by
  induction m with
  | nil => simp at hmem
  | cons p rest ih =>
      obtain ⟨k', w⟩ := p
      have hnd' : ¬ k' ∈ assocKeys rest ∧ NodupKeys rest := by
        unfold NodupKeys at hnd ⊢
        simpa [List.nodup_cons] using hnd
      rcases List.mem_cons.mp hmem with h | h
      · injection h with h1 h2
        subst h1; subst h2
        simp [assocFind]
      · have hk : ¬ k' = k := by
          intro hkk; subst hkk
          exact hnd'.1 (List.mem_map_of_mem (fun x => x.1) h)
        simp only [assocFind, if_neg hk]
        exact ih hnd'.2 h

theorem assocFind_append {α : Type} (m1 m2 : List (String × α)) (k : String) :
    assocFind (m1 ++ m2) k =
      match assocFind m1 k with
      | some v => some v
      | none => assocFind m2 k := by
  induction m1 with
  | nil => simp [assocFind]
  | cons p rest ih =>
      obtain ⟨k', w⟩ := p
      by_cases hk : k' = k <;> simp [assocFind, hk, ih]

theorem assocFind_map_value {α β : Type} (m : List (String × α))
    (g : String → α → β) (k : String) :
    assocFind (m.map (fun p => (p.1, g p.1 p.2))) k = (assocFind m k).map (g k) := by
  induction m with
  | nil => simp [assocFind]
  | cons p rest ih =>
      obtain ⟨k', w⟩ := p
      by_cases hk : k' = k
      · subst hk; simp [assocFind]
      · simp [assocFind, hk, ih]

/-! ## Differencer lemmas -/

theorem assocFind_filter {α : Type} (b : List (String × α)) (q : String → Bool)
    (k : String) :
    assocFind (b.filter (fun p => q p.1)) k =
      if q k then assocFind b k else none := by
  induction b with
  | nil => simp [assocFind]
  | cons p rest ih =>
      obtain ⟨k', w⟩ := p
      by_cases hk : k' = k
      · subst hk
        by_cases hq : q k' = true
        · simp [List.filter, hq, assocFind]
        · simp only [Bool.not_eq_true] at hq
          simp [List.filter, hq, assocFind, ih]
      · by_cases hq : q k' = true
        · simp [List.filter, hq, assocFind, hk, ih]
        · simp only [Bool.not_eq_true] at hq
          simp [List.filter, hq, assocFind, hk, ih]

theorem missingGo_eq (b o acc : SMap)
    (hfresh : ∀ x, x ∈ assocKeys b → ¬ x ∈ assocKeys acc)
    (hnd : NodupKeys b) :
    missingGo b o acc = acc ++ b.filter (fun p => !(assocFind o p.1).isSome) := by
  induction b generalizing acc with
  | nil => simp [missingGo]
  | cons p rest ih =>
      obtain ⟨k, v⟩ := p
      have hnd' : ¬ k ∈ assocKeys rest ∧ NodupKeys rest := by
        unfold NodupKeys at hnd ⊢
        simpa [List.nodup_cons] using hnd
      have hkacc : ¬ k ∈ assocKeys acc := hfresh k (by simp)
      have hfresh2 : ∀ x, x ∈ assocKeys rest → ¬ x ∈ assocKeys (acc ++ [(k, v)]) := by
        intro x hx
        simp only [assocKeys_append, List.mem_append, assocKeys_cons]
        rintro (hxa | hxk)
        · exact hfresh x (by simp [hx]) hxa
        · simp at hxk
          subst hxk
          exact hnd'.1 hx
      by_cases ho : (assocFind o k).isSome = true
      · have hstep : missingGo ((k, v) :: rest) o acc = missingGo rest o acc := by
          simp [missingGo, ho]
        rw [hstep, ih acc (fun x hx => hfresh x (by simp [hx])) hnd'.2]
        simp [List.filter, ho]
      · have ho' : (assocFind o k).isSome = false := by simpa using ho
        have hstep : missingGo ((k, v) :: rest) o acc =
            missingGo rest o (assocInsert acc k v) := by
          simp [missingGo, ho']
        rw [hstep, assocInsert_fresh acc k v hkacc,
          ih (acc ++ [(k, v)]) hfresh2 hnd'.2]
        simp [List.filter, ho']

theorem needUploadGo_eq (localC cachedC acc : SMap)
    (hfresh : ∀ x, x ∈ assocKeys localC → ¬ x ∈ assocKeys acc)
    (hnd : NodupKeys localC) :
    needUploadGo localC cachedC acc =
      acc ++ localC.filter (fun p =>
        match assocFind cachedC p.1 with
        | none => true
        | some rv => trimEmpty rv) := by
  induction localC generalizing acc with
  | nil => simp [needUploadGo]
  | cons p rest ih =>
      obtain ⟨k, v⟩ := p
      have hnd' : ¬ k ∈ assocKeys rest ∧ NodupKeys rest := by
        unfold NodupKeys at hnd ⊢
        simpa [List.nodup_cons] using hnd
      have hkacc : ¬ k ∈ assocKeys acc := hfresh k (by simp)
      have hfresh2 : ∀ x, x ∈ assocKeys rest → ¬ x ∈ assocKeys (acc ++ [(k, v)]) := by
        intro x hx
        simp only [assocKeys_append, List.mem_append, assocKeys_cons]
        rintro (hxa | hxk)
        · exact hfresh x (by simp [hx]) hxa
        · simp at hxk
          subst hxk
          exact hnd'.1 hx
      cases hc : assocFind cachedC k with
      | none =>
          have hstep : needUploadGo ((k, v) :: rest) cachedC acc =
              needUploadGo rest cachedC (assocInsert acc k v) := by
            simp [needUploadGo, hc]
          rw [hstep, assocInsert_fresh acc k v hkacc,
            ih (acc ++ [(k, v)]) hfresh2 hnd'.2]
          simp [List.filter, hc]
      | some rv =>
          by_cases hrv : trimEmpty rv = true
          · have hstep : needUploadGo ((k, v) :: rest) cachedC acc =
                needUploadGo rest cachedC (assocInsert acc k v) := by
              simp [needUploadGo, hc, hrv]
            rw [hstep, assocInsert_fresh acc k v hkacc,
              ih (acc ++ [(k, v)]) hfresh2 hnd'.2]
            simp [List.filter, hc, hrv]
          · have hrv' : trimEmpty rv = false := by simpa using hrv
            have hstep : needUploadGo ((k, v) :: rest) cachedC acc =
                needUploadGo rest cachedC acc := by
              simp [needUploadGo, hc, hrv']
            rw [hstep, ih acc (fun x hx => hfresh x (by simp [hx])) hnd'.2]
            simp [List.filter, hc, hrv']

/-! ## Claim C6: missing keys -/

/-- C6: `get_missing_keys(base, other)` returns exactly the keys present in
the base content and absent from the other content, each mapped to the
base's value; in particular it is empty whenever the other key set is a
superset of the base key set, regardless of values. -/
theorem claim_C6_missing_keys (b o : SMap) (hnd : NodupKeys b) :
    (∀ k, assocFind (get_missing_keys b o) k =
        (match assocFind b k with
          | some v => if (assocFind o k).isSome then none else some v
          | none => none))
    ∧ ((∀ k, k ∈ assocKeys b → k ∈ assocKeys o) → get_missing_keys b o = []) := by
  have heq : get_missing_keys b o = b.filter (fun p => !(assocFind o p.1).isSome) := by
    unfold get_missing_keys
    rw [missingGo_eq b o [] (by simp) hnd]
    simp
  constructor
  · intro k
    rw [heq, assocFind_filter b (fun x => !(assocFind o x).isSome) k]
    cases hb : assocFind b k <;> cases ho : (assocFind o k) <;> simp [hb, ho]
  · intro hsup
    rw [heq]
    rw [List.filter_eq_nil_iff]
    intro p hp
    have hmem : p.1 ∈ assocKeys o := hsup p.1 (List.mem_map_of_mem (fun x => x.1) hp)
    simp [(assocFind_isSome o p.1).mpr hmem]

/-- Witness for C6 at the spec scenario base = `{"a":"1","b":"2"}`,
other = `{"a":"x"}`. -/
theorem claim_C6_witness :
    NodupKeys ([("a", "1"), ("b", "2")] : SMap) ∧
    assocFind (get_missing_keys [("a", "1"), ("b", "2")] [("a", "x")]) "b" = some "2" ∧
    get_missing_keys [("a", "1"), ("b", "2")] [("a", "x")] = [("b", "2")] :=
  ⟨by decide,
   ((claim_C6_missing_keys [("a", "1"), ("b", "2")] [("a", "x")] (by decide)).1 "b").trans
     (by decide),
   by decide⟩

/-! ## Claim C1: upload delta against the cached remote -/

/-- C1: the upload delta of `push_translations` contains exactly the keys
present locally whose cached remote binding is absent or empty/whitespace;
a key whose local and remote values differ while the remote value is
non-empty is never included. -/
theorem claim_C1_push_delta (localC cachedC : SMap) (hnd : NodupKeys localC) :
    (∀ k, assocFind (computeNeedUpload localC cachedC) k =
        (match assocFind localC k with
          | none => none
          | some lv =>
              match assocFind cachedC k with
              | none => some lv
              | some rv => if trimEmpty rv then some lv else none))
    ∧ (∀ k lv rv, assocFind localC k = some lv → assocFind cachedC k = some rv →
        trimEmpty rv = false →
        assocFind (computeNeedUpload localC cachedC) k = none) := by
  have heq : computeNeedUpload localC cachedC =
      localC.filter (fun p =>
        match assocFind cachedC p.1 with
        | none => true
        | some rv => trimEmpty rv) := by
    unfold computeNeedUpload
    rw [needUploadGo_eq localC cachedC [] (by simp) hnd]
    simp
  have hchar : ∀ k, assocFind (computeNeedUpload localC cachedC) k =
      (match assocFind localC k with
        | none => none
        | some lv =>
            match assocFind cachedC k with
            | none => some lv
            | some rv => if trimEmpty rv then some lv else none) := by
    intro k
    rw [heq, assocFind_filter localC
      (fun x => match assocFind cachedC x with
        | none => true
        | some rv => trimEmpty rv) k]
    cases hl : assocFind localC k <;> cases hc : assocFind cachedC k <;>
      simp [hl, hc]
  refine ⟨hchar, ?_⟩
  intro k lv rv hl hc hrv
  rw [hchar k, hl, hc]
  simp [hrv]

/-- Witness for C1 at the spec scenarios local = `{"k":"hello"}` with
cached remote `{"k":""}` (re-uploaded) and `{"k":"world"}` (skipped). -/
theorem claim_C1_witness :
    NodupKeys ([("k", "hello")] : SMap) ∧
    assocFind (computeNeedUpload [("k", "hello")] [("k", "")]) "k" = some "hello" ∧
    assocFind (computeNeedUpload [("k", "hello")] [("k", "world")]) "k" = none :=
  ⟨by decide,
   ((claim_C1_push_delta [("k", "hello")] [("k", "")] (by decide)).1 "k").trans (by decide),
   (claim_C1_push_delta [("k", "hello")] [("k", "world")] (by decide)).2 "k" "hello" "world"
     (by decide) (by decide) (by decide)⟩

/-! ## Claim C5: first-time upload pushes the entire local content -/

/-- C5: when no cached remote set exists for a language, `push_translations`
uploads the entire local content unchanged (first-time upload); a cached
remote instead routes through the computed delta, skipping the upload when
that delta is empty. -/
theorem claim_C5_first_time_full_upload :
    (∀ localC : SMap, uploadPayload localC none = some localC) ∧
    (∀ localC c : SMap,
        uploadPayload localC (some c) =
          (if (computeNeedUpload localC c).isEmpty then none
           else some (computeNeedUpload localC c))) := by
  constructor
  · intro localC
    rfl
  · intro localC c
    rfl

/-! ## Claim C3: per-language failure isolation -/

/-- Counterexample to C3 as stated: in `push_translations` an upload
failure for one language aborts the whole run via `?` even though an
earlier language already uploaded successfully, so the push run does not
continue past failures and can fail although not zero languages
succeeded. -/
theorem claim_C3_counterexample :
    push_loop
        [⟨[("k", "v")], none, true⟩, ⟨[("k", "v")], none, false⟩,
         ⟨[("k", "v")], none, true⟩] = .error () ∧
    (uploadPayload ([("k", "v")] : SMap) none).isSome = true ∧
    ([⟨[("k", "v")], none, true⟩, ⟨[("k", "v")], none, false⟩,
      ⟨[("k", "v")], none, true⟩] : List PushLang).length = 3 :=
  ⟨rfl, rfl, rfl⟩

/-- Accumulator-generalized tally of the `sync_translations` loop. -/
theorem syncCounts_go (outs : List SyncOutcome) (s f : Nat) :
    (outs.foldl syncStep (s, f)).1 + (outs.foldl syncStep (s, f)).2
      = s + f + outs.length := by
  induction outs generalizing s f with
  | nil => simp
  | cons o rest ih =>
      cases o <;> simp [List.foldl, syncStep, ih] <;> omega

/-- C3 (amended): during a sync run, a per-language fetch failure does not
abort the run — the loop processes every language, tallies successes and
failures, and the run errors (carrying the tally) exactly when zero
languages succeeded; during a push run, by contrast, the first failed
upload aborts the run immediately. -/
theorem claim_C3_orchestration :
    (∀ outs : List SyncOutcome,
        (syncCounts outs).1 + (syncCounts outs).2 = outs.length) ∧
    (∀ outs : List SyncOutcome,
        sync_translations_result outs = .ok (syncCounts outs) ↔
          0 < (syncCounts outs).1) ∧
    (∀ outs : List SyncOutcome,
        sync_translations_result outs = .error (syncCounts outs) ↔
          (syncCounts outs).1 = 0) ∧
    (∀ (p : PushLang) (rest : List PushLang),
        (uploadPayload p.content p.cached).isSome = true → p.uploadOk = false →
        push_loop (p :: rest) = .error ()) := by
  refine ⟨?_, ?_, ?_, ?_⟩
  · intro outs
    simpa using syncCounts_go outs 0 0
  · intro outs
    unfold sync_translations_result
    by_cases h : 0 < (syncCounts outs).1 <;> simp [h]
  · intro outs
    unfold sync_translations_result
    by_cases h : 0 < (syncCounts outs).1 <;> simp [h] <;> omega
  · intro p rest hsome hfail
    cases hpay : uploadPayload p.content p.cached with
    | none => rw [hpay] at hsome; simp at hsome
    | some d => simp [push_loop, hpay, hfail]

/-- Witness for C3 (amended): a sync run where two of three languages fail
still succeeds with tally `(1, 2)`; a push run whose first language has a
pending payload and a failing upload errors out. -/
theorem claim_C3_witness :
    (syncCounts [.synced, .fetchFailed, .noRemoteFile]).1 +
        (syncCounts [.synced, .fetchFailed, .noRemoteFile]).2 = 3 ∧
    sync_translations_result [.synced, .fetchFailed, .noRemoteFile] = .ok (1, 2) ∧
    (uploadPayload ([("k", "v")] : SMap) none).isSome = true ∧
    (⟨[("k", "v")], none, false⟩ : PushLang).uploadOk = false ∧
    push_loop [⟨[("k", "v")], none, false⟩] = .error () :=
  ⟨claim_C3_orchestration.1 [.synced, .fetchFailed, .noRemoteFile],
   (claim_C3_orchestration.2.1 [.synced, .fetchFailed, .noRemoteFile]).mpr (by decide),
   rfl, rfl,
   claim_C3_orchestration.2.2.2 ⟨[("k", "v")], none, false⟩ [] rfl rfl⟩

/-! ## Json well-formedness and induction -/

mutual
/-- The `serde_json::Map` invariant, recursively: object field keys are
unique and field values are well-formed (array elements are opaque to every
operation under study). -/
def wfJson : Json → Bool
  | .obj fs => wfJsonFields fs
  | _ => true

/-- Field-list half of `wfJson`. -/
def wfJsonFields : JMap → Bool
  | [] => true
  | (k, v) :: rest =>
      !(assocFind rest k).isSome && wfJson v && wfJsonFields rest
end

theorem sizeOf_lt_of_mem_fields {fs : JMap} {k : String} {v : Json}
    (h : (k, v) ∈ fs) : sizeOf v < sizeOf (Json.obj fs) := by
  induction fs with
  | nil => simp at h
  | cons p rest ih =>
      rcases List.mem_cons.mp h with h1 | h1
      · subst h1
        simp
        omega
      · have := ih h1
        simp at this ⊢
        omega

/-- Structural induction over `Json` with a membership hypothesis for
object fields (array elements never need an induction hypothesis here). -/
theorem Json.inductionOn {P : Json → Prop}
    (hstr : ∀ s, P (.str s)) (hnum : ∀ n, P (.num n))
    (hbool : ∀ b, P (.bool b)) (hnull : P .null)
    (harr : ∀ xs, P (.arr xs))
    (hobj : ∀ fs, (∀ k v, (k, v) ∈ fs → P v) → P (.obj fs)) :
    ∀ t, P t
  | .str s => hstr s
  | .num n => hnum n
  | .bool b => hbool b
  | .null => hnull
  | .arr xs => harr xs
  | .obj fs =>
      hobj fs (fun k v hm =>
        Json.inductionOn hstr hnum hbool hnull harr hobj v)
termination_by t => sizeOf t
decreasing_by exact sizeOf_lt_of_mem_fields hm

theorem wfJsonFields_iff (fs : JMap) :
    wfJsonFields fs = true ↔
      NodupKeys fs ∧ ∀ k v, (k, v) ∈ fs → wfJson v = true := by
  induction fs with
  | nil => simp [wfJsonFields, NodupKeys]
  | cons p rest ih =>
      obtain ⟨k, v⟩ := p
      simp only [wfJsonFields, Bool.and_eq_true, Bool.not_eq_true', ih]
      constructor
      · rintro ⟨⟨hk, hv⟩, hnd, hmem⟩
        refine ⟨?_, ?_⟩
        · simp only [NodupKeys, assocKeys_cons, List.nodup_cons]
          refine ⟨?_, hnd⟩
          intro hmem
          rw [(assocFind_isSome rest k).mpr hmem] at hk
          simp at hk
        · intro k' v' hm
          rcases List.mem_cons.mp hm with h1 | h1
          · injection h1 with e1 e2
            subst e2
            exact hv
          · exact hmem k' v' h1
      · rintro ⟨hnd, hmem⟩
        have hnd' : ¬ k ∈ assocKeys rest ∧ NodupKeys rest := by
          simpa [NodupKeys, List.nodup_cons] using hnd
        refine ⟨⟨?_, hmem k v (by simp)⟩, hnd'.2, fun k' v' hm => hmem k' v' (by simp [hm])⟩
        rw [← Bool.not_eq_true, assocFind_isSome]
        exact hnd'.1

/-! ## Merge shape lemmas -/

/-- Whether the remote-only loop of `merge_json_content` keeps a remote
value: everything except empty/whitespace strings. -/
def keepRemote : Json → Bool
  | .str rs => !trimEmpty rs
  | _ => true

theorem mergeCommon_eq_merge (lv rv : Json) :
    mergeCommon lv rv = merge_json_content lv rv := by
  cases lv <;> cases rv <;> simp [mergeCommon, merge_json_content]

/-- The value the local loop of `merge_json_content` associates with a
local key. -/
def localMergeVal (rm : JMap) (k : String) (lv : Json) : Json :=
  match assocFind rm k with
  | some rv => merge_json_content lv rv
  | none => lv

theorem mergeLocalKeys_eq (lm rm acc : JMap)
    (hfresh : ∀ x, x ∈ assocKeys lm → ¬ x ∈ assocKeys acc)
    (hnd : NodupKeys lm) :
    mergeLocalKeys lm rm acc =
      acc ++ lm.map (fun p => (p.1, localMergeVal rm p.1 p.2)) := by
  induction lm generalizing acc with
  | nil => simp [mergeLocalKeys]
  | cons p rest ih =>
      obtain ⟨k, lv⟩ := p
      have hnd' : ¬ k ∈ assocKeys rest ∧ NodupKeys rest := by
        simpa [NodupKeys, List.nodup_cons] using hnd
      have hkacc : ¬ k ∈ assocKeys acc := hfresh k (by simp)
      have hfresh2 : ∀ x, x ∈ assocKeys rest →
          ¬ x ∈ assocKeys (acc ++ [(k, localMergeVal rm k lv)]) := by
        intro x hx
        simp only [assocKeys_append, List.mem_append, assocKeys_cons]
        rintro (hxa | hxk)
        · exact hfresh x (by simp [hx]) hxa
        · simp at hxk
          subst hxk
          exact hnd'.1 hx
      have hstep : mergeLocalKeys ((k, lv) :: rest) rm acc =
          mergeLocalKeys rest rm (assocInsert acc k (localMergeVal rm k lv)) := by
        rw [mergeLocalKeys]
        unfold localMergeVal
        cases h : assocFind rm k <;> simp [h, mergeCommon_eq_merge]
      rw [hstep, assocInsert_fresh acc k _ hkacc, ih _ hfresh2 hnd'.2]
      simp

theorem mergeRemoteOnly_eq (rm lm acc : JMap)
    (hfresh : ∀ x, x ∈ assocKeys rm → (assocFind lm x).isSome = false →
      ¬ x ∈ assocKeys acc)
    (hnd : NodupKeys rm) :
    mergeRemoteOnly rm lm acc =
      acc ++ rm.filter (fun p => !(assocFind lm p.1).isSome && keepRemote p.2) := by
  induction rm generalizing acc with
  | nil => simp [mergeRemoteOnly]
  | cons p rest ih =>
      obtain ⟨k, rv⟩ := p
      have hnd' : ¬ k ∈ assocKeys rest ∧ NodupKeys rest := by
        simpa [NodupKeys, List.nodup_cons] using hnd
      by_cases hl : (assocFind lm k).isSome = true
      · have hstep : mergeRemoteOnly ((k, rv) :: rest) lm acc =
            mergeRemoteOnly rest lm acc := by
          simp [mergeRemoteOnly, hl]
        rw [hstep, ih acc (fun x hx h2 => hfresh x (by simp [hx]) h2) hnd'.2]
        simp [List.filter, hl]
      · have hl' : (assocFind lm k).isSome = false := by simpa using hl
        have hkacc : ¬ k ∈ assocKeys acc := hfresh k (by simp) hl'
        have hfresh2 : ∀ x, x ∈ assocKeys rest → (assocFind lm x).isSome = false →
            ¬ x ∈ assocKeys (acc ++ [(k, rv)]) := by
          intro x hx h2
          simp only [assocKeys_append, List.mem_append, assocKeys_cons]
          rintro (hxa | hxk)
          · exact hfresh x (by simp [hx]) h2 hxa
          · simp at hxk
            subst hxk
            exact hnd'.1 hx
        by_cases hkeep : keepRemote rv = true
        · have hstep : mergeRemoteOnly ((k, rv) :: rest) lm acc =
              mergeRemoteOnly rest lm (assocInsert acc k rv) := by
            cases rv with
            | str rs =>
                have hts : trimEmpty rs = false := by
                  simpa [keepRemote] using hkeep
                rw [mergeRemoteOnly]
                simp [hl', hts]
            | num n =>
                rw [mergeRemoteOnly]; simp [hl']
                all_goals (intro rs h; exact Json.noConfusion h)
            | bool b =>
                rw [mergeRemoteOnly]; simp [hl']
                all_goals (intro rs h; exact Json.noConfusion h)
            | null =>
                rw [mergeRemoteOnly]; simp [hl']
                all_goals (intro rs h; exact Json.noConfusion h)
            | arr xs =>
                rw [mergeRemoteOnly]; simp [hl']
                all_goals (intro rs h; exact Json.noConfusion h)
            | obj fs =>
                rw [mergeRemoteOnly]; simp [hl']
                all_goals (intro rs h; exact Json.noConfusion h)
          rw [hstep, assocInsert_fresh acc k rv hkacc, ih _ hfresh2 hnd'.2]
          simp [List.filter, hl', hkeep]
        · have hkeep' : keepRemote rv = false := by simpa using hkeep
          have hstep : mergeRemoteOnly ((k, rv) :: rest) lm acc =
              mergeRemoteOnly rest lm acc := by
            cases rv with
            | str rs =>
                have hts : trimEmpty rs = true := by
                  simpa [keepRemote] using hkeep'
                rw [mergeRemoteOnly]
                simp [hl', hts]
            | num n => simp [keepRemote] at hkeep'
            | bool b => simp [keepRemote] at hkeep'
            | null => simp [keepRemote] at hkeep'
            | arr xs => simp [keepRemote] at hkeep'
            | obj fs => simp [keepRemote] at hkeep'
          rw [hstep, ih acc (fun x hx h2 => hfresh x (by simp [hx]) h2) hnd'.2]
          simp [List.filter, hl', hkeep']

theorem assocKeys_map_value {α β : Type} (m : List (String × α))
    (g : String → α → β) :
    assocKeys (m.map (fun p => (p.1, g p.1 p.2))) = assocKeys m := by
  induction m with
  | nil => rfl
  | cons p rest ih => simp [ih]

theorem map_eq_self_of {α : Type} (l : List α) (f : α → α)
    (h : ∀ a, a ∈ l → f a = a) : l.map f = l := by
  induction l with
  | nil => rfl
  | cons a rest ih =>
      simp only [List.map_cons, h a (by simp)]
      rw [ih (fun a ha => h a (by simp [ha]))]

theorem assocKeys_filter_subset {α : Type} (l : List (String × α))
    (q : String × α → Bool) (x : String)
    (hx : x ∈ assocKeys (l.filter q)) : x ∈ assocKeys l := by
  simp only [assocKeys, List.mem_map] at hx ⊢
  obtain ⟨p, hp, he⟩ := hx
  exact ⟨p, (List.mem_filter.mp hp).1, he⟩

theorem assocFind_filter_pair {α : Type} (l : List (String × α))
    (q : String × α → Bool) (k : String) (hnd : NodupKeys l) :
    assocFind (l.filter q) k =
      (match assocFind l k with
        | some v => if q (k, v) then some v else none
        | none => none) := by
  induction l with
  | nil => simp [assocFind]
  | cons p rest ih =>
      obtain ⟨k', w⟩ := p
      have hnd' : ¬ k' ∈ assocKeys rest ∧ NodupKeys rest := by
        simpa [NodupKeys, List.nodup_cons] using hnd
      by_cases hk : k' = k
      · subst hk
        have hfind : assocFind ((k', w) :: rest) k' = some w := by
          simp [assocFind]
        rw [hfind, List.filter_cons]
        by_cases hq : q (k', w) = true
        · rw [if_pos hq]
          simp [assocFind, hq]
        · have hq' : q (k', w) = false := by simpa using hq
          have hnone : assocFind (List.filter q rest) k' = none := by
            rw [assocFind_eq_none]
            intro hmem
            exact hnd'.1 (assocKeys_filter_subset rest q k' hmem)
          simp [hq', hnone]
      · have hfind : assocFind ((k', w) :: rest) k = assocFind rest k := by
          simp [assocFind, hk]
        rw [hfind, List.filter_cons]
        by_cases hq : q (k', w) = true
        · rw [if_pos hq]
          simp [assocFind, hk, ih hnd'.2]
        · have hq' : q (k', w) = false := by simpa using hq
          rw [hq']
          simp only [Bool.false_eq_true, if_false]
          exact ih hnd'.2

/-- One-level unfoldings of `merge_json_content` at non-object remote
values (the match arms of the source). -/
theorem merge_str_remote (lv : Json) (rs : String) :
    merge_json_content lv (.str rs) = if trimEmpty rs then lv else .str rs := by
  cases lv <;> simp [merge_json_content]

theorem merge_num_remote (lv : Json) (n : Int) :
    merge_json_content lv (.num n) = .num n := by
  cases lv <;> simp [merge_json_content]

theorem merge_bool_remote (lv : Json) (b : Bool) :
    merge_json_content lv (.bool b) = .bool b := by
  cases lv <;> simp [merge_json_content]

theorem merge_null_remote (lv : Json) :
    merge_json_content lv .null = .null := by
  cases lv <;> simp [merge_json_content]

theorem merge_arr_remote (lv : Json) (xs : List Json) :
    merge_json_content lv (.arr xs) = .arr xs := by
  cases lv <;> simp [merge_json_content]

theorem merge_nonobj_obj (lv : Json) (rm : JMap)
    (h : ∀ fs, lv ≠ .obj fs) :
    merge_json_content lv (.obj rm) = .obj rm := by
  cases lv with
  | obj fs => exact absurd rfl (h fs)
  | str s => rw [merge_json_content]; all_goals (intros; simp_all)
  | num n => rw [merge_json_content]; all_goals (intros; simp_all)
  | bool b => rw [merge_json_content]; all_goals (intros; simp_all)
  | null => rw [merge_json_content]; all_goals (intros; simp_all)
  | arr xs => rw [merge_json_content]; all_goals (intros; simp_all)

/-- The object/object case of `merge_json_content` as a map over the local
fields followed by the filtered remote-only fields. -/
theorem merge_obj_eq (lm rm : JMap) (hl : NodupKeys lm) (hr : NodupKeys rm) :
    merge_json_content (.obj lm) (.obj rm) =
      .obj (lm.map (fun p => (p.1, localMergeVal rm p.1 p.2)) ++
        rm.filter (fun p => !(assocFind lm p.1).isSome && keepRemote p.2)) := by
  rw [merge_json_content, mergeLocalKeys_eq lm rm [] (by simp) hl]
  rw [mergeRemoteOnly_eq rm lm _ ?_ hr]
  · simp
  · intro x hx h2
    rw [List.nil_append, assocKeys_map_value]
    rw [← assocFind_isSome, h2]
    simp

/-- Lookup in the object/object merge result. -/
theorem merge_obj_find (lm rm : JMap) (hl : NodupKeys lm) (hr : NodupKeys rm)
    (k : String) :
    assocFind
        (lm.map (fun p => (p.1, localMergeVal rm p.1 p.2)) ++
          rm.filter (fun p => !(assocFind lm p.1).isSome && keepRemote p.2)) k =
      (match assocFind lm k, assocFind rm k with
        | some lv, some rv => some (merge_json_content lv rv)
        | some lv, none => some lv
        | none, some rv => if keepRemote rv then some rv else none
        | none, none => none) := by
  rw [assocFind_append, assocFind_map_value lm (localMergeVal rm) k]
  cases hlk : assocFind lm k with
  | some lv =>
      simp only [Option.map]
      unfold localMergeVal
      cases hrk : assocFind rm k <;> simp
  | none =>
      simp only [Option.map]
      rw [assocFind_filter_pair rm _ k hr]
      cases hrk : assocFind rm k with
      | none => simp
      | some rv => simp [hlk]

theorem wfJson_obj (fs : JMap) : wfJson (.obj fs) = wfJsonFields fs := by
  rw [wfJson]

theorem wfJson_nonobj (v : Json) (h : ∀ fs, v ≠ Json.obj fs) : wfJson v = true := by
  cases v with
  | obj fs => exact absurd rfl (h fs)
  | str s => rw [wfJson]; all_goals (intros; simp_all)
  | num n => rw [wfJson]; all_goals (intros; simp_all)
  | bool b => rw [wfJson]; all_goals (intros; simp_all)
  | null => rw [wfJson]; all_goals (intros; simp_all)
  | arr xs => rw [wfJson]; all_goals (intros; simp_all)

/-- Merging two well-formed values yields a well-formed value (in
particular the merged object again has unique keys). -/
theorem merge_wf : ∀ l r, wfJson l = true → wfJson r = true →
    wfJson (merge_json_content l r) = true := by
  intro l
  induction l using Json.inductionOn with
  | hstr s =>
      intro r hl hr
      cases r with
      | obj rm =>
          rw [merge_nonobj_obj _ rm (fun fs h => Json.noConfusion h)]
          exact hr
      | str rs =>
          rw [merge_str_remote]
          split
          · exact hl
          · exact hr
      | num n => rw [merge_num_remote]; exact hr
      | bool b => rw [merge_bool_remote]; exact hr
      | null => rw [merge_null_remote]; exact hr
      | arr xs => rw [merge_arr_remote]; exact hr
  | hnum n0 =>
      intro r hl hr
      cases r with
      | obj rm =>
          rw [merge_nonobj_obj _ rm (fun fs h => Json.noConfusion h)]
          exact hr
      | str rs =>
          rw [merge_str_remote]
          split
          · exact hl
          · exact hr
      | num n => rw [merge_num_remote]; exact hr
      | bool b => rw [merge_bool_remote]; exact hr
      | null => rw [merge_null_remote]; exact hr
      | arr xs => rw [merge_arr_remote]; exact hr
  | hbool b0 =>
      intro r hl hr
      cases r with
      | obj rm =>
          rw [merge_nonobj_obj _ rm (fun fs h => Json.noConfusion h)]
          exact hr
      | str rs =>
          rw [merge_str_remote]
          split
          · exact hl
          · exact hr
      | num n => rw [merge_num_remote]; exact hr
      | bool b => rw [merge_bool_remote]; exact hr
      | null => rw [merge_null_remote]; exact hr
      | arr xs => rw [merge_arr_remote]; exact hr
  | hnull =>
      intro r hl hr
      cases r with
      | obj rm =>
          rw [merge_nonobj_obj _ rm (fun fs h => Json.noConfusion h)]
          exact hr
      | str rs =>
          rw [merge_str_remote]
          split
          · exact hl
          · exact hr
      | num n => rw [merge_num_remote]; exact hr
      | bool b => rw [merge_bool_remote]; exact hr
      | null => rw [merge_null_remote]; exact hr
      | arr xs => rw [merge_arr_remote]; exact hr
  | harr xs0 =>
      intro r hl hr
      cases r with
      | obj rm =>
          rw [merge_nonobj_obj _ rm (fun fs h => Json.noConfusion h)]
          exact hr
      | str rs =>
          rw [merge_str_remote]
          split
          · exact hl
          · exact hr
      | num n => rw [merge_num_remote]; exact hr
      | bool b => rw [merge_bool_remote]; exact hr
      | null => rw [merge_null_remote]; exact hr
      | arr xs => rw [merge_arr_remote]; exact hr
  | hobj lm ih =>
      intro r hl hr
      cases r with
      | str rs =>
          rw [merge_str_remote]
          split
          · exact hl
          · exact hr
      | num n => rw [merge_num_remote]; exact hr
      | bool b => rw [merge_bool_remote]; exact hr
      | null => rw [merge_null_remote]; exact hr
      | arr xs => rw [merge_arr_remote]; exact hr
      | obj rm =>
          have hlm := (wfJsonFields_iff lm).mp (by simpa [wfJson_obj] using hl)
          have hrm := (wfJsonFields_iff rm).mp (by simpa [wfJson_obj] using hr)
          rw [merge_obj_eq lm rm hlm.1 hrm.1, wfJson_obj]
          apply (wfJsonFields_iff _).mpr
          constructor
          · show (assocKeys _).Nodup
            rw [assocKeys_append, assocKeys_map_value]
            apply List.Nodup.append hlm.1
            · exact List.Nodup.sublist ((List.filter_sublist _).map _) hrm.1
            · intro x hx1 hx2
              obtain ⟨p, hp, he⟩ := List.mem_map.mp hx2
              have hq := (List.mem_filter.mp hp).2
              have hxlm : (assocFind lm p.1).isSome = true :=
                (assocFind_isSome lm p.1).mpr (he ▸ hx1)
              simp [hxlm] at hq
          · intro k v hmem
            rcases List.mem_append.mp hmem with hm | hm
            · obtain ⟨p0, hp0, he⟩ := List.mem_map.mp hm
              obtain ⟨k0, lv⟩ := p0
              injection he with he1 he2
              subst he1
              subst he2
              unfold localMergeVal
              cases hq : assocFind rm k0 with
              | none => exact hlm.2 k0 lv hp0
              | some rv =>
                  exact ih k0 lv hp0 rv (hlm.2 k0 lv hp0)
                    (hrm.2 k0 rv (mem_of_assocFind rm k0 rv hq))
            · exact hrm.2 k v (List.mem_filter.mp hm).1

/-- Merging a well-formed tree with itself yields it unchanged. -/
theorem merge_self : ∀ t, wfJson t = true → merge_json_content t t = t := by
  intro t
  induction t using Json.inductionOn with
  | hstr s =>
      intro h
      rw [merge_str_remote]
      split <;> rfl
  | hnum n => intro h; rw [merge_num_remote]
  | hbool b => intro h; rw [merge_bool_remote]
  | hnull => intro h; rw [merge_null_remote]
  | harr xs => intro h; rw [merge_arr_remote]
  | hobj fs ih =>
      intro h
      have hfs := (wfJsonFields_iff fs).mp (by simpa [wfJson_obj] using h)
      rw [merge_obj_eq fs fs hfs.1 hfs.1]
      have hfilter :
          fs.filter (fun p => !(assocFind fs p.1).isSome && keepRemote p.2) = [] := by
        rw [List.filter_eq_nil_iff]
        intro p hp
        have hsome : (assocFind fs p.1).isSome = true := by
          rw [assocFind_isSome]
          exact List.mem_map_of_mem _ hp
        simp [hsome]
      rw [hfilter, List.append_nil]
      congr 1
      apply map_eq_self_of
      intro p hp
      obtain ⟨k, v⟩ := p
      have hfind : assocFind fs k = some v := assocFind_of_mem fs k v hfs.1 hp
      have hval : localMergeVal fs k v = v := by
        unfold localMergeVal
        rw [hfind]
        exact ih k v hp (hfs.2 k v hp)
      simp [hval]

theorem merge_absorb_scalar (l r : Json) (h : ∀ fs, r ≠ Json.obj fs) :
    merge_json_content (merge_json_content l r) r = merge_json_content l r := by
  cases r with
  | obj rm => exact absurd rfl (h rm)
  | str rs =>
      rw [merge_str_remote]
      by_cases ht : trimEmpty rs = true
      · rw [if_pos ht, merge_str_remote, if_pos ht]
      · rw [if_neg ht, merge_str_remote, if_neg ht]
  | num n => rw [merge_num_remote, merge_num_remote]
  | bool b => rw [merge_bool_remote, merge_bool_remote]
  | null => rw [merge_null_remote, merge_null_remote]
  | arr xs => rw [merge_arr_remote, merge_arr_remote]

theorem merge_absorb_nonobj (l r : Json) (hne : ∀ fs, l ≠ Json.obj fs)
    (hr : wfJson r = true) :
    merge_json_content (merge_json_content l r) r = merge_json_content l r := by
  cases r with
  | obj rm =>
      rw [merge_nonobj_obj l rm hne]
      exact merge_self _ hr
  | str rs => exact merge_absorb_scalar l _ (fun fs h => Json.noConfusion h)
  | num n => exact merge_absorb_scalar l _ (fun fs h => Json.noConfusion h)
  | bool b => exact merge_absorb_scalar l _ (fun fs h => Json.noConfusion h)
  | null => exact merge_absorb_scalar l _ (fun fs h => Json.noConfusion h)
  | arr xs => exact merge_absorb_scalar l _ (fun fs h => Json.noConfusion h)

/-- Re-merging the merge result with the same remote tree is a no-op. -/
theorem merge_absorb : ∀ l r, wfJson l = true → wfJson r = true →
    merge_json_content (merge_json_content l r) r = merge_json_content l r := by
  intro l
  induction l using Json.inductionOn with
  | hstr s =>
      intro r hl hr
      exact merge_absorb_nonobj _ r (fun fs h => Json.noConfusion h) hr
  | hnum n =>
      intro r hl hr
      exact merge_absorb_nonobj _ r (fun fs h => Json.noConfusion h) hr
  | hbool b =>
      intro r hl hr
      exact merge_absorb_nonobj _ r (fun fs h => Json.noConfusion h) hr
  | hnull =>
      intro r hl hr
      exact merge_absorb_nonobj _ r (fun fs h => Json.noConfusion h) hr
  | harr xs =>
      intro r hl hr
      exact merge_absorb_nonobj _ r (fun fs h => Json.noConfusion h) hr
  | hobj lm ih =>
      intro r hl hr
      cases r with
      | str rs => exact merge_absorb_scalar _ _ (fun fs h => Json.noConfusion h)
      | num n => exact merge_absorb_scalar _ _ (fun fs h => Json.noConfusion h)
      | bool b => exact merge_absorb_scalar _ _ (fun fs h => Json.noConfusion h)
      | null => exact merge_absorb_scalar _ _ (fun fs h => Json.noConfusion h)
      | arr xs => exact merge_absorb_scalar _ _ (fun fs h => Json.noConfusion h)
      | obj rm =>
          have hlm := (wfJsonFields_iff lm).mp (by simpa [wfJson_obj] using hl)
          have hrm := (wfJsonFields_iff rm).mp (by simpa [wfJson_obj] using hr)
          have hmerge := merge_obj_eq lm rm hlm.1 hrm.1
          have hwfM : wfJsonFields
              (lm.map (fun p => (p.1, localMergeVal rm p.1 p.2)) ++
                rm.filter (fun p => !(assocFind lm p.1).isSome && keepRemote p.2))
              = true := by
            have hw := merge_wf (.obj lm) (.obj rm) hl hr
            rw [hmerge, wfJson_obj] at hw
            exact hw
          have hM := (wfJsonFields_iff _).mp hwfM
          rw [hmerge, merge_obj_eq _ rm hM.1 hrm.1]
          congr 1
          have hfilter :
              rm.filter (fun p =>
                !(assocFind
                    (lm.map (fun p => (p.1, localMergeVal rm p.1 p.2)) ++
                      rm.filter (fun p =>
                        !(assocFind lm p.1).isSome && keepRemote p.2)) p.1).isSome &&
                  keepRemote p.2) = [] := by
            rw [List.filter_eq_nil_iff]
            intro p hp
            by_cases hkeep : keepRemote p.2 = true
            · have hpM : p.1 ∈ assocKeys
                  (lm.map (fun p => (p.1, localMergeVal rm p.1 p.2)) ++
                    rm.filter (fun p =>
                      !(assocFind lm p.1).isSome && keepRemote p.2)) := by
                rw [assocKeys_append, assocKeys_map_value]
                by_cases hin : p.1 ∈ assocKeys lm
                · exact List.mem_append.mpr (Or.inl hin)
                · apply List.mem_append.mpr
                  right
                  have h0 : assocFind lm p.1 = none :=
                    (assocFind_eq_none lm p.1).mpr hin
                  exact List.mem_map_of_mem _
                    (List.mem_filter.mpr ⟨hp, by simp [h0, hkeep]⟩)
              have hsome := (assocFind_isSome _ p.1).mpr hpM
              rw [hsome]
              simp
            · have hkeep' : keepRemote p.2 = false := by simpa using hkeep
              simp [hkeep']
          rw [hfilter, List.append_nil]
          apply map_eq_self_of
          intro p hp
          rcases List.mem_append.mp hp with hm | hm
          · obtain ⟨p0, hp0, he⟩ := List.mem_map.mp hm
            obtain ⟨k0, lv⟩ := p0
            subst he
            cases hq : assocFind rm k0 with
            | none => simp [localMergeVal, hq]
            | some rv =>
                have hab : merge_json_content (merge_json_content lv rv) rv =
                    merge_json_content lv rv :=
                  ih k0 lv hp0 rv (hlm.2 k0 lv hp0)
                    (hrm.2 k0 rv (mem_of_assocFind rm k0 rv hq))
                simp [localMergeVal, hq, hab]
          · have hpin := List.mem_filter.mp hm
            obtain ⟨k0, rv⟩ := p
            have hfind : assocFind rm k0 = some rv :=
              assocFind_of_mem rm k0 rv hrm.1 hpin.1
            have hms : merge_json_content rv rv = rv :=
              merge_self rv (hrm.2 k0 rv hpin.1)
            simp [localMergeVal, hfind, hms]

/-! ## Claim C2: merge characterization -/

/-- Counterexample to C2 as stated: a remote-only key whose value is an
empty string is *not* added by the merge — `merge_json_content` of an empty
local object with remote `{"k": ""}` drops the key entirely. -/
theorem claim_C2_counterexample :
    merge_json_content (.obj []) (.obj [("k", Json.str "")]) = .obj ([] : JMap) ∧
    Json.obj ([] : JMap) ≠ Json.obj [("k", Json.str "")] := by
  constructor
  · rw [merge_obj_eq [] [("k", Json.str "")] (by decide) (by decide)]
    simp [List.filter, assocFind, keepRemote, trimEmpty]
  · intro h
    injection h with h1
    simp at h1

/-- C2 (amended): for well-formed objects, merge keeps every local-only key
with its local value, recurses (via `merge_json_content`) on keys present
on both sides, and adds every remote-only key except those whose value is
an empty or whitespace-only string, which are dropped; at a common key an
empty/whitespace remote string keeps the local value, and any other remote
string wins (also over a local object, collapsing it to the remote
scalar), as do remote numbers, booleans and null. -/
theorem claim_C2_merge_spec (lm rm : JMap) (hl : NodupKeys lm) (hr : NodupKeys rm) :
    (∃ M : JMap, merge_json_content (.obj lm) (.obj rm) = .obj M ∧
        ∀ k, assocFind M k =
          (match assocFind lm k, assocFind rm k with
            | some lv, some rv => some (merge_json_content lv rv)
            | some lv, none => some lv
            | none, some rv => if keepRemote rv then some rv else none
            | none, none => none))
    ∧ (∀ lv rs, trimEmpty rs = true → merge_json_content lv (.str rs) = lv)
    ∧ (∀ lv rs, trimEmpty rs = false → merge_json_content lv (.str rs) = .str rs)
    ∧ (∀ lv n, merge_json_content lv (.num n) = .num n)
    ∧ (∀ lv b, merge_json_content lv (.bool b) = .bool b)
    ∧ (∀ lv, merge_json_content lv .null = .null) := by
  refine ⟨⟨_, merge_obj_eq lm rm hl hr, merge_obj_find lm rm hl hr⟩,
    ?_, ?_, merge_num_remote, merge_bool_remote, merge_null_remote⟩
  · intro lv rs ht
    rw [merge_str_remote, if_pos ht]
  · intro lv rs ht
    rw [merge_str_remote, if_neg (by simp [ht])]

/-- Witness for C2 (amended) at the Rust unit-test scenario
local = `{"a":"X","b":"Y"}`, remote = `{"b":"Z","c":"W"}`, plus the
keep-local-on-whitespace clause at `("local", "  ")`. -/
theorem claim_C2_witness :
    NodupKeys ([("a", Json.str "X"), ("b", Json.str "Y")] : JMap) ∧
    NodupKeys ([("b", Json.str "Z"), ("c", Json.str "W")] : JMap) ∧
    (∃ M : JMap,
        merge_json_content (.obj [("a", Json.str "X"), ("b", Json.str "Y")])
            (.obj [("b", Json.str "Z"), ("c", Json.str "W")]) = .obj M ∧
        ∀ k, assocFind M k =
          (match assocFind [("a", Json.str "X"), ("b", Json.str "Y")] k,
              assocFind [("b", Json.str "Z"), ("c", Json.str "W")] k with
            | some lv, some rv => some (merge_json_content lv rv)
            | some lv, none => some lv
            | none, some rv => if keepRemote rv then some rv else none
            | none, none => none)) ∧
    merge_json_content (Json.str "local") (Json.str "  ") = Json.str "local" :=
  ⟨by decide, by decide,
   (claim_C2_merge_spec [("a", Json.str "X"), ("b", Json.str "Y")]
      [("b", Json.str "Z"), ("c", Json.str "W")] (by decide) (by decide)).1,
   (claim_C2_merge_spec [] [] (by decide) (by decide)).2.1 (Json.str "local") "  "
     (by decide)⟩

/-! ## Claim C4: merge idempotence and absorption -/

/-- C4: for every well-formed tree (unique object keys, the `serde_json`
map invariant), merging a tree with itself yields it unchanged, and
re-merging the merge result with the same remote tree equals merging once
(no key lost or duplicated, since the results are equal as insertion
ordered maps). -/
theorem claim_C4_merge_idempotent :
    (∀ t, wfJson t = true → merge_json_content t t = t) ∧
    (∀ l r, wfJson l = true → wfJson r = true →
        merge_json_content (merge_json_content l r) r = merge_json_content l r) :=
  ⟨merge_self, merge_absorb⟩

/-- Witness for C4 at a two-level tree and a local/remote pair. -/
theorem claim_C4_witness :
    wfJson (Json.obj [("a", Json.str "x"), ("b", Json.obj [("c", Json.str "y")])]) = true ∧
    merge_json_content
        (Json.obj [("a", Json.str "x"), ("b", Json.obj [("c", Json.str "y")])])
        (Json.obj [("a", Json.str "x"), ("b", Json.obj [("c", Json.str "y")])]) =
      Json.obj [("a", Json.str "x"), ("b", Json.obj [("c", Json.str "y")])] ∧
    merge_json_content
        (merge_json_content (Json.obj [("a", Json.str "x")]) (Json.obj [("a", Json.str "z")]))
        (Json.obj [("a", Json.str "z")]) =
      merge_json_content (Json.obj [("a", Json.str "x")]) (Json.obj [("a", Json.str "z")]) := by
  have hwf1 : wfJson
      (Json.obj [("a", Json.str "x"), ("b", Json.obj [("c", Json.str "y")])]) = true := by
    simp [wfJson, wfJsonFields, assocFind]
  refine ⟨hwf1, claim_C4_merge_idempotent.1 _ hwf1, ?_⟩
  apply claim_C4_merge_idempotent.2
  · simp [wfJson, wfJsonFields, assocFind]
  · simp [wfJson, wfJsonFields, assocFind]

/-! ## Claim C8: unflatten structure conflicts -/

/-- Specification-side predicate: walking the tree along the given parts
hits an existing binding that is not an object (the situation in which
`as_object_mut()` fails in `save_translation_file`). -/
def pathBlocked : JMap → List String → Bool
  | _, [] => false
  | t, p :: rest =>
      match assocFind t p with
      | none => false
      | some (.obj sub) => pathBlocked sub rest
      | some _ => true

theorem insertPath_nil_isSome : ∀ (parts : List String) (v : String),
    (insertPath [] parts v).isSome = true := by
  intro parts
  induction parts with
  | nil => intro v; simp [insertPath]
  | cons p rest ih =>
      intro v
      cases rest with
      | nil => simp [insertPath]
      | cons q rest2 =>
          have hf : assocFind ([] : JMap) p = none := rfl
          simp only [insertPath, hf]
          cases hin : insertPath [] (q :: rest2) v with
          | none =>
              have h2 := ih v
              rw [hin] at h2
              simp at h2
          | some sub => simp

theorem insertPath_none_iff : ∀ (parts : List String) (t : JMap) (v : String),
    insertPath t parts v = none ↔ pathBlocked t parts.dropLast = true := by
  intro parts
  induction parts with
  | nil => intro t v; simp [insertPath, pathBlocked]
  | cons p rest ih =>
      intro t v
      cases rest with
      | nil => simp [insertPath, pathBlocked]
      | cons q rest2 =>
          have hdrop : (p :: q :: rest2).dropLast = p :: (q :: rest2).dropLast := rfl
          rw [hdrop]
          cases hf : assocFind t p with
          | none =>
              simp only [insertPath, hf, pathBlocked]
              cases hin : insertPath [] (q :: rest2) v with
              | none =>
                  have := insertPath_nil_isSome (q :: rest2) v
                  rw [hin] at this
                  simp at this
              | some sub => simp
          | some w =>
              cases w with
              | obj sub =>
                  simp only [insertPath, hf, pathBlocked]
                  cases hin : insertPath sub (q :: rest2) v with
                  | none =>
                      simp only [Option.map]
                      have := (ih sub v).mp hin
                      simp [this]
                  | some sub2 =>
                      simp only [Option.map]
                      have : ¬ pathBlocked sub (q :: rest2).dropLast = true := by
                        intro hb
                        have := (ih sub v).mpr hb
                        rw [this] at hin
                        exact Option.noConfusion hin
                      simp [this]
              | str s => simp [insertPath, hf, pathBlocked]
              | num n => simp [insertPath, hf, pathBlocked]
              | bool b => simp [insertPath, hf, pathBlocked]
              | null => simp [insertPath, hf, pathBlocked]
              | arr xs => simp [insertPath, hf, pathBlocked]

theorem unflattenGo_append (m1 m2 : SMap) (t : JMap) :
    unflattenGo (m1 ++ m2) t =
      (match unflattenGo m1 t with
        | some t2 => unflattenGo m2 t2
        | none => none) := by
  induction m1 generalizing t with
  | nil => simp [unflattenGo]
  | cons p rest ih =>
      obtain ⟨k, v⟩ := p
      simp only [List.cons_append, unflattenGo]
      cases insertPath t (splitDot k) v <;> simp [ih]

/-- C8: unflattening tolerates a later key extending a prefix an earlier
key created — an insertion fails exactly when a strict prefix of its path
reaches an existing non-object binding (`pathBlocked`) — and, in whatever
order the flat entries are processed, once the tree built so far has a
scalar at a strict prefix of a key's path, processing that key fails the
whole unflattening with the structure-conflict error. -/
theorem claim_C8_structure_conflict :
    (∀ (t : JMap) (parts : List String) (v : String),
        insertPath t parts v = none ↔ pathBlocked t parts.dropLast = true)
    ∧ (∀ (pre : SMap) (k v : String) (suf : SMap) (t : JMap),
        unflattenGo pre [] = some t →
        pathBlocked t (splitDot k).dropLast = true →
        unflatten (pre ++ (k, v) :: suf) = none) := by
  constructor
  · intro t parts v
    exact insertPath_none_iff parts t v
  · intro pre k v suf t hpre hblocked
    unfold unflatten
    rw [unflattenGo_append, hpre]
    simp only [unflattenGo]
    rw [(insertPath_none_iff (splitDot k) t v).mpr hblocked]

/-- Witness for C8: after `{"a": "y"}` assigns a scalar to `a`, the key
`a.b` conflicts and the whole unflattening fails, in the order given;
`a.b` into an empty tree constructs the missing intermediate object. -/
theorem claim_C8_witness :
    unflattenGo [("a", "y")] [] = some [("a", Json.str "y")] ∧
    pathBlocked [("a", Json.str "y")] (splitDot "a.b").dropLast = true ∧
    unflatten ([("a", "y")] ++ ("a.b", "x") :: []) = none ∧
    insertPath [] (splitDot "a.b") "x" =
      some [("a", Json.obj [("b", Json.str "x")])] :=
  ⟨rfl, rfl,
   claim_C8_structure_conflict.2 [("a", "y")] "a.b" "x" [] [("a", Json.str "y")]
     rfl rfl,
   rfl⟩

/-! ## Claim C9: unflattened leaves are strings -/

mutual
/-- Every leaf of the value is a JSON string (objects recurse; any other
non-string value is a non-string leaf). -/
def strLeaves : Json → Bool
  | .str _ => true
  | .obj fs => strLeavesFields fs
  | _ => false

/-- Field-list half of `strLeaves`. -/
def strLeavesFields : JMap → Bool
  | [] => true
  | (k, v) :: rest => strLeaves v && strLeavesFields rest
end

theorem strLeavesFields_insert (t : JMap) (k : String) (v : Json)
    (ht : strLeavesFields t = true) (hv : strLeaves v = true) :
    strLeavesFields (assocInsert t k v) = true := by
  induction t with
  | nil => simp [assocInsert, strLeavesFields, hv]
  | cons p rest ih =>
      obtain ⟨k0, w⟩ := p
      rw [strLeavesFields] at ht
      simp only [Bool.and_eq_true] at ht
      by_cases hk : k0 = k
      · subst hk
        simp only [assocInsert, if_pos rfl]
        simp [strLeavesFields, hv, ht.2]
      · simp only [assocInsert, if_neg hk]
        simp [strLeavesFields, ht.1, ih ht.2]

theorem strLeaves_of_mem (t : JMap) (k : String) (v : Json)
    (ht : strLeavesFields t = true) (hmem : (k, v) ∈ t) :
    strLeaves v = true := by
  induction t with
  | nil => simp at hmem
  | cons p rest ih =>
      obtain ⟨k0, w⟩ := p
      rw [strLeavesFields] at ht
      simp only [Bool.and_eq_true] at ht
      rcases List.mem_cons.mp hmem with h1 | h1
      · injection h1 with e1 e2
        subst e2
        exact ht.1
      · exact ih ht.2 h1

theorem insertPath_strLeaves : ∀ (parts : List String) (t : JMap) (v : String)
    (t2 : JMap), strLeavesFields t = true → insertPath t parts v = some t2 →
    strLeavesFields t2 = true := by
  intro parts
  induction parts with
  | nil =>
      intro t v t2 ht h
      simp only [insertPath] at h
      injection h with h1
      subst h1
      exact ht
  | cons p rest ih =>
      intro t v t2 ht h
      cases rest with
      | nil =>
          simp only [insertPath] at h
          injection h with h1
          subst h1
          exact strLeavesFields_insert t p (.str v) ht rfl
      | cons q rest2 =>
          cases hf : assocFind t p with
          | none =>
              simp only [insertPath, hf] at h
              cases hin : insertPath [] (q :: rest2) v with
              | none => rw [hin] at h; simp at h
              | some sub =>
                  rw [hin] at h
                  simp only [Option.map] at h
                  injection h with h1
                  subst h1
                  have hsub : strLeavesFields sub = true := ih [] v sub rfl hin
                  exact strLeavesFields_insert t p (.obj sub) ht
                    (by rw [strLeaves]; exact hsub)
          | some w =>
              cases w with
              | obj sub =>
                  simp only [insertPath, hf] at h
                  cases hin : insertPath sub (q :: rest2) v with
                  | none => rw [hin] at h; simp at h
                  | some sub2 =>
                      rw [hin] at h
                      simp only [Option.map] at h
                      injection h with h1
                      subst h1
                      have hmem := mem_of_assocFind t p _ hf
                      have hsub : strLeavesFields sub = true := by
                        have := strLeaves_of_mem t p (.obj sub) ht hmem
                        rw [strLeaves] at this
                        exact this
                      have hsub2 : strLeavesFields sub2 = true :=
                        ih sub v sub2 hsub hin
                      exact strLeavesFields_insert t p (.obj sub2) ht
                        (by rw [strLeaves]; exact hsub2)
              | str s => simp [insertPath, hf] at h
              | num n => simp [insertPath, hf] at h
              | bool b => simp [insertPath, hf] at h
              | null => simp [insertPath, hf] at h
              | arr xs => simp [insertPath, hf] at h

theorem unflattenGo_strLeaves : ∀ (m : SMap) (t t2 : JMap),
    strLeavesFields t = true → unflattenGo m t = some t2 →
    strLeavesFields t2 = true := by
  intro m
  induction m with
  | nil =>
      intro t t2 ht h
      simp only [unflattenGo] at h
      injection h with h1
      subst h1
      exact ht
  | cons p rest ih =>
      intro t t2 ht h
      obtain ⟨k, v⟩ := p
      simp only [unflattenGo] at h
      cases hin : insertPath t (splitDot k) v with
      | none => rw [hin] at h; simp at h
      | some t3 =>
          rw [hin] at h
          exact ih t3 t2 (insertPath_strLeaves (splitDot k) t v t3 ht hin) h

/-- C9: every leaf of the tree produced by unflattening a flat mapping is a
JSON string; consequently flattening a tree with number, boolean and null
leaves and unflattening the result turns those leaves into their textual
forms as strings. -/
theorem claim_C9_string_leaves :
    (∀ (m : SMap) (t : JMap), unflatten m = some t → strLeavesFields t = true)
    ∧ unflatten (flatten_json
        (.obj [("a", Json.num 1), ("b", Json.bool true), ("c", Json.null)])) =
      some [("a", Json.str "1"), ("b", Json.str "true"), ("c", Json.str "null")] := by
  constructor
  · intro m t h
    exact unflattenGo_strLeaves m [] t rfl h
  · rfl

/-- Witness for C9 at the flat mapping `{"x.y": "1"}`. -/
theorem claim_C9_witness :
    unflatten [("x.y", "1")] = some [("x", Json.obj [("y", Json.str "1")])] ∧
    strLeavesFields [("x", Json.obj [("y", Json.str "1")])] = true :=
  ⟨rfl, claim_C9_string_leaves.1 [("x.y", "1")] _ rfl⟩

/-! ## Claim C7: flatten/unflatten round trip

Infrastructure: a well-formedness predicate for round-trippable trees
(non-empty objects, unique keys, keys non-empty and dot-free), the
specification-side emission functions relating `flatten_json_inner` to
key-path entries, and the replay of those entries by
`save_translation_file`'s insertion loop. -/

/-- A field key that splits back to itself: non-empty and without `'.'`. -/
def okPart (k : String) : Bool := !k.data.isEmpty && !(k.data.contains '.')

theorem string_mk_data (s : String) : String.mk s.data = s := by
  cases s
  rfl

theorem strData_append (a b : String) : (a ++ b).data = a.data ++ b.data := by
  cases a
  cases b
  rfl

theorem splitDotAux_append (l1 l2 : List Char) (acc : List Char) :
    splitDotAux (l1 ++ '.' :: l2) acc =
      splitDotAux l1 acc ++ splitDotAux l2 [] := by
  induction l1 generalizing acc with
  | nil => simp [splitDotAux]
  | cons c rest ih =>
      by_cases hc : c = '.'
      · subst hc
        simp [splitDotAux, ih]
      · simp [splitDotAux, hc, ih]

theorem splitDotAux_nodot (l : List Char) (acc : List Char)
    (h : ¬ '.' ∈ l) :
    splitDotAux l acc = [String.mk (acc.reverse ++ l)] := by
  induction l generalizing acc with
  | nil => simp [splitDotAux]
  | cons c rest ih =>
      have hc : ¬ c = '.' := by
        intro he
        exact h (by rw [← he]; exact List.mem_cons_self c rest)
      have hrest : ¬ '.' ∈ rest := fun hm => h (List.mem_cons_of_mem c hm)
      simp [splitDotAux, hc, ih _ hrest]

theorem splitDot_append_dot (x k : String) :
    splitDot (x ++ "." ++ k) = splitDot x ++ splitDot k := by
  unfold splitDot
  have hdata : (x ++ "." ++ k).data = x.data ++ '.' :: k.data := by
    rw [strData_append, strData_append, List.append_assoc]
    rfl
  rw [hdata, splitDotAux_append]

theorem splitDot_okPart (k : String) (h : okPart k = true) : splitDot k = [k] := by
  unfold okPart at h
  simp only [Bool.and_eq_true, Bool.not_eq_true'] at h
  unfold splitDot
  rw [splitDotAux_nodot k.data [] (by simpa using h.2)]
  simp [string_mk_data]

theorem okPart_ne_empty (k : String) (h : okPart k = true) : k ≠ "" := by
  intro he
  subst he
  simp [okPart] at h

theorem joinKey_empty (k : String) : joinKey "" k = k := by
  simp [joinKey]

theorem joinKey_ne (pfx k : String) (h : pfx ≠ "") :
    joinKey pfx k = pfx ++ "." ++ k := by
  simp [joinKey, h]

theorem joinKey_data (pfx k : String) (h : pfx ≠ "") :
    (joinKey pfx k).data = pfx.data ++ '.' :: k.data := by
  rw [joinKey_ne pfx k h, strData_append, strData_append, List.append_assoc]
  rfl

theorem joinKey_ne_empty (pfx k : String) (h : pfx ≠ "") :
    joinKey pfx k ≠ "" := by
  intro he
  have hd := congrArg String.data he
  rw [joinKey_data pfx k h] at hd
  have hnil : ("" : String).data = [] := rfl
  rw [hnil] at hd
  simp at hd

mutual
/-- Round-trippable value: nested objects are non-empty, their keys unique,
non-empty and dot-free; every non-object value is a leaf. -/
def rtOk : Json → Bool
  | .obj fs => !fs.isEmpty && rtFields fs
  | _ => true

/-- Field-list half of `rtOk`. -/
def rtFields : JMap → Bool
  | [] => true
  | (k, v) :: rest =>
      okPart k && !(assocFind rest k).isSome && rtOk v && rtFields rest
end

mutual
/-- What unflattening rebuilds from a flattened tree: strings survive,
objects recurse, every other value becomes the string of its
serialization. -/
def stringify : Json → Json
  | .str s => .str s
  | .obj fs => .obj (stringifyFields fs)
  | v => .str v.render

/-- Field-list half of `stringify`. -/
def stringifyFields : JMap → JMap
  | [] => []
  | (k, v) :: rest => (k, stringify v) :: stringifyFields rest
end

mutual
/-- The key-path/value entries a value contributes to the flattened map,
relative to the position of the value. -/
def pentriesVal : Json → List (List String × String)
  | .str s => [([], s)]
  | .obj fs => pentries fs
  | v => [([], v.render)]

/-- The key-path/value entries of an object's fields. -/
def pentries : JMap → List (List String × String)
  | [] => []
  | (k, v) :: rest =>
      (pentriesVal v).map (fun e => (k :: e.1, e.2)) ++ pentries rest
end

mutual
/-- The flat entries `flatten_json_inner` appends for a value under a
prefix (in emission order). -/
def emitsVal : Json → String → SMap
  | .str s, key => [(key, s)]
  | .obj fs, key => emits fs key
  | v, key => [(key, v.render)]

/-- The flat entries of an object's fields under a prefix. -/
def emits : JMap → String → SMap
  | [], _ => []
  | (k, v) :: rest, pfx => emitsVal v (joinKey pfx k) ++ emits rest pfx
end

theorem pentriesVal_ne_nil : ∀ v, rtOk v = true → pentriesVal v ≠ [] := by
  intro v
  induction v using Json.inductionOn with
  | hstr s => intro h; simp [pentriesVal]
  | hnum n => intro h; simp [pentriesVal]
  | hbool b => intro h; simp [pentriesVal]
  | hnull => intro h; simp [pentriesVal]
  | harr xs => intro h; simp [pentriesVal]
  | hobj fs ih =>
      intro h
      rw [rtOk] at h
      simp only [Bool.and_eq_true] at h
      cases fs with
      | nil => simp at h
      | cons p rest =>
          obtain ⟨k, v0⟩ := p
          rw [pentriesVal, pentries]
          intro hcontra
          have hparts := List.append_eq_nil.mp hcontra
          have h1 := hparts.1
          rw [List.map_eq_nil_iff] at h1
          have hflds := h.2
          rw [rtFields] at hflds
          simp only [Bool.and_eq_true] at hflds
          obtain ⟨⟨⟨hok, hfind⟩, hv0⟩, hrest⟩ := hflds
          exact ih k v0 (by simp) hv0 h1

theorem flattenFields_emits_of (fs : JMap)
    (hP : ∀ k v, (k, v) ∈ fs → ∀ pfx m,
      List.Nodup (assocKeys m ++ assocKeys (emitsVal v pfx)) →
      flatten_json_inner v pfx m = m ++ emitsVal v pfx) :
    ∀ pfx m, List.Nodup (assocKeys m ++ assocKeys (emits fs pfx)) →
    flattenFields fs pfx m = m ++ emits fs pfx := by
  induction fs with
  | nil =>
      intro pfx m h
      simp [flattenFields, emits]
  | cons p rest ih =>
      obtain ⟨k, v⟩ := p
      intro pfx m h
      rw [flattenFields, emits]
      rw [emits, assocKeys_append] at h
      have h' : List.Nodup
          ((assocKeys m ++ assocKeys (emitsVal v (joinKey pfx k))) ++
            assocKeys (emits rest pfx)) := by
        rwa [List.append_assoc]
      have h1 := List.Nodup.of_append_left h'
      rw [hP k v (by simp) (joinKey pfx k) m h1]
      have h2 : List.Nodup
          (assocKeys (m ++ emitsVal v (joinKey pfx k)) ++
            assocKeys (emits rest pfx)) := by
        rw [assocKeys_append]
        exact h'
      rw [ih (fun k' v' hm => hP k' v' (by simp [hm])) pfx _ h2]
      rw [List.append_assoc]

theorem flatten_inner_emits : ∀ v pfx m,
    List.Nodup (assocKeys m ++ assocKeys (emitsVal v pfx)) →
    flatten_json_inner v pfx m = m ++ emitsVal v pfx := by
  intro v
  induction v using Json.inductionOn with
  | hstr s =>
      intro pfx m h
      show assocInsert m pfx s = m ++ [(pfx, s)]
      apply assocInsert_fresh
      intro hmem
      have hd := (List.nodup_append.mp (by simpa [emitsVal] using h)).2.2
      exact hd hmem (by simp)
  | hnum n =>
      intro pfx m h
      show assocInsert m pfx (Json.num n).render = m ++ [(pfx, (Json.num n).render)]
      apply assocInsert_fresh
      intro hmem
      have hd := (List.nodup_append.mp (by simpa [emitsVal] using h)).2.2
      exact hd hmem (by simp)
  | hbool b =>
      intro pfx m h
      show assocInsert m pfx (Json.bool b).render = m ++ [(pfx, (Json.bool b).render)]
      apply assocInsert_fresh
      intro hmem
      have hd := (List.nodup_append.mp (by simpa [emitsVal] using h)).2.2
      exact hd hmem (by simp)
  | hnull =>
      intro pfx m h
      show assocInsert m pfx Json.null.render = m ++ [(pfx, Json.null.render)]
      apply assocInsert_fresh
      intro hmem
      have hd := (List.nodup_append.mp (by simpa [emitsVal] using h)).2.2
      exact hd hmem (by simp)
  | harr xs =>
      intro pfx m h
      show assocInsert m pfx (Json.arr xs).render = m ++ [(pfx, (Json.arr xs).render)]
      apply assocInsert_fresh
      intro hmem
      have hd := (List.nodup_append.mp (by simpa [emitsVal] using h)).2.2
      exact hd hmem (by simp)
  | hobj fs ih =>
      intro pfx m h
      show flattenFields fs pfx m = m ++ emitsVal (.obj fs) pfx
      rw [show emitsVal (.obj fs) pfx = emits fs pfx from rfl] at h ⊢
      exact flattenFields_emits_of fs ih pfx m h

theorem emitSplit_fields_of (fs : JMap)
    (hP : ∀ k v, (k, v) ∈ fs → ∀ pfx, pfx ≠ "" → rtOk v = true →
      (emitsVal v pfx).map (fun e => (splitDot e.1, e.2)) =
        (pentriesVal v).map (fun e => (splitDot pfx ++ e.1, e.2))) :
    ∀ pfx, pfx ≠ "" → rtFields fs = true →
    (emits fs pfx).map (fun e => (splitDot e.1, e.2)) =
      (pentries fs).map (fun e => (splitDot pfx ++ e.1, e.2)) := by
  induction fs with
  | nil =>
      intro pfx hpfx hrt
      simp [emits, pentries]
  | cons p rest ih =>
      obtain ⟨k, v⟩ := p
      intro pfx hpfx hrt
      rw [rtFields] at hrt
      simp only [Bool.and_eq_true] at hrt
      obtain ⟨⟨⟨hok, hfind⟩, hv⟩, hrest⟩ := hrt
      rw [emits, pentries, List.map_append, List.map_append]
      congr 1
      · rw [hP k v (by simp) (joinKey pfx k) (joinKey_ne_empty pfx k hpfx) hv]
        rw [List.map_map]
        apply List.map_congr_left
        intro e he
        simp only [Function.comp]
        rw [joinKey_ne pfx k hpfx, splitDot_append_dot, splitDot_okPart k hok]
        simp
      · exact ih (fun k' v' hm => hP k' v' (by simp [hm])) pfx hpfx hrest

theorem emitSplit_val : ∀ v pfx, pfx ≠ "" → rtOk v = true →
    (emitsVal v pfx).map (fun e => (splitDot e.1, e.2)) =
      (pentriesVal v).map (fun e => (splitDot pfx ++ e.1, e.2)) := by
  intro v
  induction v using Json.inductionOn with
  | hstr s => intro pfx hpfx hrt; simp [emitsVal, pentriesVal]
  | hnum n => intro pfx hpfx hrt; simp [emitsVal, pentriesVal]
  | hbool b => intro pfx hpfx hrt; simp [emitsVal, pentriesVal]
  | hnull => intro pfx hpfx hrt; simp [emitsVal, pentriesVal]
  | harr xs => intro pfx hpfx hrt; simp [emitsVal, pentriesVal]
  | hobj fs ih =>
      intro pfx hpfx hrt
      rw [rtOk] at hrt
      simp only [Bool.and_eq_true] at hrt
      show (emits fs pfx).map (fun e => (splitDot e.1, e.2)) =
        (pentries fs).map (fun e => (splitDot pfx ++ e.1, e.2))
      exact emitSplit_fields_of fs ih pfx hpfx hrt.2

theorem emitSplit_valTop (k : String) (v : Json) (hok : okPart k = true)
    (hv : rtOk v = true) :
    (emitsVal v k).map (fun e => (splitDot e.1, e.2)) =
      (pentriesVal v).map (fun e => (k :: e.1, e.2)) := by
  cases v with
  | str s => simp [emitsVal, pentriesVal, splitDot_okPart k hok]
  | num n => simp [emitsVal, pentriesVal, splitDot_okPart k hok]
  | bool b => simp [emitsVal, pentriesVal, splitDot_okPart k hok]
  | null => simp [emitsVal, pentriesVal, splitDot_okPart k hok]
  | arr xs => simp [emitsVal, pentriesVal, splitDot_okPart k hok]
  | obj fs =>
      rw [rtOk] at hv
      simp only [Bool.and_eq_true] at hv
      show (emits fs k).map (fun e => (splitDot e.1, e.2)) =
        (pentries fs).map (fun e => (k :: e.1, e.2))
      rw [emitSplit_fields_of fs (fun k' v' hm => emitSplit_val v') k
        (okPart_ne_empty k hok) hv.2]
      apply List.map_congr_left
      intro e he
      rw [splitDot_okPart k hok]
      simp

theorem emitSplit_top (fs : JMap) (hrt : rtFields fs = true) :
    (emits fs "").map (fun e => (splitDot e.1, e.2)) = pentries fs := by
  induction fs with
  | nil => simp [emits, pentries]
  | cons p rest ih =>
      obtain ⟨k, v⟩ := p
      rw [rtFields] at hrt
      simp only [Bool.and_eq_true] at hrt
      obtain ⟨⟨⟨hok, hfind⟩, hv⟩, hrest⟩ := hrt
      rw [emits, pentries, List.map_append, joinKey_empty]
      congr 1
      · exact emitSplit_valTop k v hok hv
      · exact ih hrest

theorem pentries_head (fs : JMap) :
    ∀ e, e ∈ pentries fs → ∃ q ps, e.1 = q :: ps ∧ q ∈ assocKeys fs := by
  induction fs with
  | nil => intro e he; simp [pentries] at he
  | cons p rest ih =>
      obtain ⟨k, v⟩ := p
      intro e he
      rw [pentries] at he
      rcases List.mem_append.mp he with hm | hm
      · obtain ⟨e0, he0, hmap⟩ := List.mem_map.mp hm
        refine ⟨k, e0.1, ?_, by simp⟩
        rw [← hmap]
      · obtain ⟨q, ps, hq, hmem⟩ := ih e hm
        exact ⟨q, ps, hq, by simp [hmem]⟩

theorem pathsNodup_fields_of (fs : JMap)
    (hP : ∀ k v, (k, v) ∈ fs → rtOk v = true →
      ((pentriesVal v).map (fun e => e.1)).Nodup) :
    rtFields fs = true → ((pentries fs).map (fun e => e.1)).Nodup := by
  induction fs with
  | nil => intro h; simp [pentries]
  | cons p rest ih =>
      obtain ⟨k, v⟩ := p
      intro hrt
      rw [rtFields] at hrt
      simp only [Bool.and_eq_true] at hrt
      obtain ⟨⟨⟨hok, hfind⟩, hv⟩, hrest⟩ := hrt
      rw [pentries, List.map_append]
      apply List.Nodup.append
      · have h1 : ((pentriesVal v).map (fun e => ((k :: e.1 : List String), e.2))).map
            (fun e => e.1) =
            ((pentriesVal v).map (fun e => e.1)).map (fun ps => k :: ps) := by
          rw [List.map_map, List.map_map]
          rfl
        rw [h1]
        apply List.Nodup.map
        · intro a b hab
          injection hab
        · exact hP k v (by simp) hv
      · exact ih (fun k' v' hm => hP k' v' (by simp [hm])) hrest
      · intro x hx1 hx2
        obtain ⟨e1, he1, hx1e⟩ := List.mem_map.mp hx1
        obtain ⟨e2, he2, hx2e⟩ := List.mem_map.mp hx2
        obtain ⟨q, ps, hq, hqmem⟩ := pentries_head rest e2 he2
        obtain ⟨e0, he0, he0e⟩ := List.mem_map.mp he1
        have hx1head : x = k :: e0.1 := by
          rw [← hx1e, ← he0e]
        have hx2head : x = q :: ps := by
          rw [← hx2e, hq]
        have hkq : k = q := by
          rw [hx1head] at hx2head
          injection hx2head
        rw [← hkq] at hqmem
        rw [← assocFind_isSome] at hqmem
        rw [hqmem] at hfind
        simp at hfind

theorem pathsNodup_val : ∀ v, rtOk v = true →
    ((pentriesVal v).map (fun e => e.1)).Nodup := by
  intro v
  induction v using Json.inductionOn with
  | hstr s => intro h; simp [pentriesVal]
  | hnum n => intro h; simp [pentriesVal]
  | hbool b => intro h; simp [pentriesVal]
  | hnull => intro h; simp [pentriesVal]
  | harr xs => intro h; simp [pentriesVal]
  | hobj fs ih =>
      intro h
      rw [rtOk] at h
      simp only [Bool.and_eq_true] at h
      show ((pentries fs).map (fun e => e.1)).Nodup
      exact pathsNodup_fields_of fs ih h.2

theorem emits_keys_nodup (fs : JMap) (hrt : rtFields fs = true) :
    List.Nodup (assocKeys (emits fs "")) := by
  have hmapped : ((assocKeys (emits fs "")).map splitDot).Nodup := by
    have heq : (assocKeys (emits fs "")).map splitDot =
        (pentries fs).map (fun e => e.1) := by
      show ((emits fs "").map (fun p => p.1)).map splitDot = _
      rw [List.map_map, ← emitSplit_top fs hrt, List.map_map]
      rfl
    rw [heq]
    exact pathsNodup_fields_of fs (fun k v hm => pathsNodup_val v) hrt
  exact List.Nodup.of_map splitDot hmapped

/-- `save_translation_file`'s insertion loop at the level of
already-split key paths. -/
def unflattenParts : List (List String × String) → JMap → Option JMap
  | [], t => some t
  | (ps, v) :: rest, t =>
      match insertPath t ps v with
      | none => none
      | some t2 => unflattenParts rest t2

theorem unflattenGo_eq_parts (m : SMap) : ∀ t,
    unflattenGo m t = unflattenParts (m.map (fun e => (splitDot e.1, e.2))) t := by
  induction m with
  | nil => intro t; simp [unflattenGo, unflattenParts]
  | cons p rest ih =>
      obtain ⟨k, v⟩ := p
      intro t
      rw [unflattenGo, List.map_cons, unflattenParts]
      cases insertPath t (splitDot k) v <;> simp [ih]

theorem unflattenParts_append (E1 E2 : List (List String × String)) (t : JMap) :
    unflattenParts (E1 ++ E2) t =
      (match unflattenParts E1 t with
        | some t2 => unflattenParts E2 t2
        | none => none) := by
  induction E1 generalizing t with
  | nil => simp [unflattenParts]
  | cons e rest ih =>
      obtain ⟨ps, v⟩ := e
      rw [List.cons_append, unflattenParts, unflattenParts]
      cases insertPath t ps v <;> simp [ih]

theorem assocInsert_insert {α : Type} (t : List (String × α)) (k : String)
    (x y : α) : assocInsert (assocInsert t k x) k y = assocInsert t k y := by
  induction t with
  | nil => simp [assocInsert]
  | cons p rest ih =>
      obtain ⟨k0, w⟩ := p
      by_cases hk : k0 = k
      · subst hk
        simp [assocInsert]
      · simp [assocInsert, hk, ih]

theorem assocInsert_find_self {α : Type} (t : List (String × α)) (k : String)
    (v : α) (h : assocFind t k = some v) : assocInsert t k v = t := by
  induction t with
  | nil => simp [assocFind] at h
  | cons p rest ih =>
      obtain ⟨k0, w⟩ := p
      by_cases hk : k0 = k
      · subst hk
        simp only [assocFind, if_pos rfl] at h
        injection h with h1
        subst h1
        simp [assocInsert]
      · simp only [assocFind, if_neg hk] at h
        simp [assocInsert, hk, ih h]

theorem lift_some : ∀ (E : List (List String × String)) (k : String)
    (t sub : JMap), assocFind t k = some (.obj sub) →
    (∀ e, e ∈ E → e.1 ≠ ([] : List String)) →
    unflattenParts (E.map (fun e => (k :: e.1, e.2))) t =
      Option.map (fun s2 => assocInsert t k (.obj s2)) (unflattenParts E sub) := by
  intro E
  induction E with
  | nil =>
      intro k t sub hf hne
      simp only [List.map_nil, unflattenParts, Option.map]
      rw [assocInsert_find_self t k _ hf]
  | cons e rest ih =>
      intro k t sub hf hne
      obtain ⟨ps, v⟩ := e
      cases ps with
      | nil => exact absurd rfl (hne (([] : List String), v) (by simp))
      | cons q ps2 =>
          rw [List.map_cons, unflattenParts, unflattenParts]
          have hstep : insertPath t (k :: q :: ps2) v =
              Option.map (fun s2 => assocInsert t k (.obj s2))
                (insertPath sub (q :: ps2) v) := by
            simp [insertPath, hf]
          rw [hstep]
          cases hin : insertPath sub (q :: ps2) v with
          | none => simp [Option.map]
          | some s0 =>
              simp only [Option.map]
              have hf2 : assocFind (assocInsert t k (.obj s0)) k =
                  some (.obj s0) := by
                rw [assocFind_insert]
                simp
              rw [ih k (assocInsert t k (.obj s0)) s0 hf2
                (fun e he => hne e (by simp [he]))]
              cases unflattenParts rest s0 <;>
                simp [Option.map, assocInsert_insert]

theorem lift_fresh : ∀ (e : List String × String)
    (E : List (List String × String)) (k : String) (t : JMap),
    assocFind t k = none →
    (∀ e', e' ∈ (e :: E) → e'.1 ≠ ([] : List String)) →
    unflattenParts ((e :: E).map (fun e => (k :: e.1, e.2))) t =
      Option.map (fun s2 => assocInsert t k (.obj s2))
        (unflattenParts (e :: E) []) := by
  intro e E k t hf hne
  obtain ⟨ps, v⟩ := e
  cases ps with
  | nil => exact absurd rfl (hne (([] : List String), v) (by simp))
  | cons q ps2 =>
      rw [List.map_cons, unflattenParts, unflattenParts]
      have hstep : insertPath t (k :: q :: ps2) v =
          Option.map (fun s2 => assocInsert t k (.obj s2))
            (insertPath [] (q :: ps2) v) := by
        simp [insertPath, hf]
      rw [hstep]
      cases hin : insertPath [] (q :: ps2) v with
      | none => simp [Option.map]
      | some s0 =>
          simp only [Option.map]
          have hf2 : assocFind (assocInsert t k (.obj s0)) k = some (.obj s0) := by
            rw [assocFind_insert]
            simp
          rw [lift_some E k (assocInsert t k (.obj s0)) s0 hf2
            (fun e2 he2 => hne e2 (by simp [he2]))]
          cases unflattenParts E s0 <;>
            simp [Option.map, assocInsert_insert]

theorem replay_fields_of (fs : JMap)
    (hP : ∀ k v, (k, v) ∈ fs → ∀ (k2 : String) (t : JMap), rtOk v = true →
      assocFind t k2 = none →
      unflattenParts ((pentriesVal v).map (fun e => (k2 :: e.1, e.2))) t =
        some (t ++ [(k2, stringify v)])) :
    ∀ t, rtFields fs = true → (∀ p, p ∈ fs → assocFind t p.1 = none) →
    unflattenParts (pentries fs) t = some (t ++ stringifyFields fs) := by
  induction fs with
  | nil =>
      intro t hrt hfresh
      simp [pentries, unflattenParts, stringifyFields]
  | cons p rest ih =>
      obtain ⟨k, v⟩ := p
      intro t hrt hfresh
      rw [rtFields] at hrt
      simp only [Bool.and_eq_true] at hrt
      obtain ⟨⟨⟨hok, hfind⟩, hv⟩, hrest⟩ := hrt
      rw [pentries, unflattenParts_append]
      rw [hP k v (by simp) k t hv (hfresh (k, v) (by simp))]
      have hfresh2 : ∀ p, p ∈ rest →
          assocFind (t ++ [(k, stringify v)]) p.1 = none := by
        intro p0 hp0
        rw [assocFind_append]
        rw [hfresh p0 (by simp [hp0])]
        have hne : ¬ k = p0.1 := by
          intro he
          have h1 : (assocFind rest k).isSome = false := by simpa using hfind
          have h2 : k ∈ assocKeys rest :=
            he ▸ List.mem_map_of_mem (fun x => x.1) hp0
          rw [(assocFind_isSome rest k).mpr h2] at h1
          simp at h1
        simp [assocFind, hne]
      show unflattenParts (pentries rest) (t ++ [(k, stringify v)]) = _
      rw [ih (fun k' v' hm => hP k' v' (by simp [hm]))
        (t ++ [(k, stringify v)]) hrest hfresh2]
      rw [stringifyFields]
      simp

theorem replay_val : ∀ v, ∀ (k : String) (t : JMap), rtOk v = true →
    assocFind t k = none →
    unflattenParts ((pentriesVal v).map (fun e => (k :: e.1, e.2))) t =
      some (t ++ [(k, stringify v)]) := by
  intro v
  induction v using Json.inductionOn with
  | hstr s =>
      intro k t hrt hf
      show some (assocInsert t k (.str s)) =
        some (t ++ [(k, stringify (.str s))])
      rw [assocInsert_fresh t k _ (by rw [← assocFind_eq_none]; exact hf)]
      rfl
  | hnum n =>
      intro k t hrt hf
      show some (assocInsert t k (.str (Json.num n).render)) =
        some (t ++ [(k, stringify (Json.num n))])
      rw [assocInsert_fresh t k _ (by rw [← assocFind_eq_none]; exact hf)]
      rfl
  | hbool b =>
      intro k t hrt hf
      show some (assocInsert t k (.str (Json.bool b).render)) =
        some (t ++ [(k, stringify (Json.bool b))])
      rw [assocInsert_fresh t k _ (by rw [← assocFind_eq_none]; exact hf)]
      rfl
  | hnull =>
      intro k t hrt hf
      show some (assocInsert t k (.str Json.null.render)) =
        some (t ++ [(k, stringify (Json.null))])
      rw [assocInsert_fresh t k _ (by rw [← assocFind_eq_none]; exact hf)]
      rfl
  | harr xs =>
      intro k t hrt hf
      show some (assocInsert t k (.str (Json.arr xs).render)) =
        some (t ++ [(k, stringify (Json.arr xs))])
      rw [assocInsert_fresh t k _ (by rw [← assocFind_eq_none]; exact hf)]
      rfl
  | hobj fs ih =>
      intro k t hrt hf
      have hrt' := hrt
      rw [rtOk] at hrt'
      simp only [Bool.and_eq_true] at hrt'
      have hne : pentriesVal (.obj fs) ≠ [] := pentriesVal_ne_nil (.obj fs) hrt
      have htails : ∀ e', e' ∈ pentriesVal (.obj fs) →
          e'.1 ≠ ([] : List String) := by
        intro e' he'
        rw [pentriesVal] at he'
        obtain ⟨q, ps, hq, hmem⟩ := pentries_head fs e' he'
        rw [hq]
        simp
      cases hE : pentriesVal (.obj fs) with
      | nil => exact absurd hE hne
      | cons e E =>
          rw [← hE]
          rw [hE, lift_fresh e E k t hf (hE ▸ htails), ← hE]
          rw [show pentriesVal (.obj fs) = pentries fs from rfl]
          rw [replay_fields_of fs ih [] hrt'.2 (by intro p hp; rfl)]
          rw [List.nil_append, Option.map]
          rw [assocInsert_fresh t k _ (by rw [← assocFind_eq_none]; exact hf)]
          rfl

/-- The master round-trip theorem: flattening a round-trippable tree and
unflattening the result rebuilds the tree with every leaf replaced by its
string form. -/
theorem roundtrip_master (fs : JMap) (hrt : rtFields fs = true) :
    unflatten (flatten_json (.obj fs)) = some (stringifyFields fs) := by
  have hflat : flatten_json (.obj fs) = emits fs "" := by
    show flatten_json_inner (.obj fs) "" [] = emits fs ""
    rw [flatten_inner_emits (.obj fs) "" []
      (by simpa [emitsVal] using emits_keys_nodup fs hrt)]
    rfl
  rw [hflat]
  unfold unflatten
  rw [unflattenGo_eq_parts, emitSplit_top fs hrt]
  rw [replay_fields_of fs (fun k v hm => replay_val v) [] hrt
    (by intro p hp; rfl)]
  rfl

theorem stringifyFields_id_of (fs : JMap)
    (hP : ∀ k v, (k, v) ∈ fs → strLeaves v = true → stringify v = v) :
    strLeavesFields fs = true → stringifyFields fs = fs := by
  induction fs with
  | nil => intro h; rfl
  | cons p rest ih =>
      obtain ⟨k, v⟩ := p
      intro h
      rw [strLeavesFields] at h
      simp only [Bool.and_eq_true] at h
      rw [stringifyFields, hP k v (by simp) h.1,
        ih (fun k' v' hm => hP k' v' (by simp [hm])) h.2]

theorem stringify_id_val : ∀ v, strLeaves v = true → stringify v = v := by
  intro v
  induction v using Json.inductionOn with
  | hstr s => intro h; rfl
  | hnum n =>
      intro h
      rw [strLeaves] at h
      · simp at h
      all_goals (intros; simp_all)
  | hbool b =>
      intro h
      rw [strLeaves] at h
      · simp at h
      all_goals (intros; simp_all)
  | hnull =>
      intro h
      rw [strLeaves] at h
      · simp at h
      all_goals (intros; simp_all)
  | harr xs =>
      intro h
      rw [strLeaves] at h
      · simp at h
      all_goals (intros; simp_all)
  | hobj fs ih =>
      intro h
      rw [strLeaves] at h
      show Json.obj (stringifyFields fs) = Json.obj fs
      rw [stringifyFields_id_of fs ih h]

/-- Counterexample to C7 as stated: the array-free tree `{"a": 1}` does not
round trip — the numeric leaf comes back as the string `"1"`, which is not
equivalent to the number `1`. -/
theorem claim_C7_counterexample :
    unflatten (flatten_json (.obj [("a", Json.num 1)])) =
      some [("a", Json.str "1")] ∧
    (some [("a", Json.str "1")] : Option JMap) ≠ some [("a", Json.num 1)] := by
  constructor
  · rfl
  · intro h
    injection h with h1
    simp at h1

/-- C7 (amended): for every tree whose leaves are all strings (hence no
arrays), whose objects are non-empty with unique, non-empty, dot-free
keys, unflattening the result of flattening reconstructs the tree
exactly. -/
theorem claim_C7_roundtrip (fs : JMap) (h1 : rtFields fs = true)
    (h2 : strLeavesFields fs = true) :
    unflatten (flatten_json (.obj fs)) = some fs := by
  rw [roundtrip_master fs h1,
    stringifyFields_id_of fs (fun k v hm hv => stringify_id_val v hv) h2]

/-- Witness for C7 (amended) at a two-level tree. -/
theorem claim_C7_witness :
    rtFields ([("common", Json.obj [("time", Json.obj
        [("today", Json.str "Today"), ("tomorrow", Json.str "Tomorrow")])]),
      ("key", Json.str "value")] : JMap) = true ∧
    strLeavesFields ([("common", Json.obj [("time", Json.obj
        [("today", Json.str "Today"), ("tomorrow", Json.str "Tomorrow")])]),
      ("key", Json.str "value")] : JMap) = true ∧
    unflatten (flatten_json (.obj
      [("common", Json.obj [("time", Json.obj
          [("today", Json.str "Today"), ("tomorrow", Json.str "Tomorrow")])]),
        ("key", Json.str "value")])) =
      some [("common", Json.obj [("time", Json.obj
          [("today", Json.str "Today"), ("tomorrow", Json.str "Tomorrow")])]),
        ("key", Json.str "value")] := by
  have h1 : rtFields ([("common", Json.obj [("time", Json.obj
        [("today", Json.str "Today"), ("tomorrow", Json.str "Tomorrow")])]),
      ("key", Json.str "value")] : JMap) = true := by
    simp [rtFields, rtOk, okPart, assocFind]
  have h2 : strLeavesFields ([("common", Json.obj [("time", Json.obj
        [("today", Json.str "Today"), ("tomorrow", Json.str "Tomorrow")])]),
      ("key", Json.str "value")] : JMap) = true := by
    simp [strLeavesFields, strLeaves]
  exact ⟨h1, h2, claim_C7_roundtrip _ h1 h2⟩

/-! ## Claim C10: flatten is not injective on dotted keys -/

/-- C10: a literal dotted key and the corresponding nested path flatten to
the same output key, so flatten is not injective; a tree containing both
has two leaves but its flattened mapping has a single entry, and the
nested leaf's value has overwritten the literal key's value. -/
theorem claim_C10_flatten_not_injective :
    flatten_json (.obj [("a.b", Json.str "y")]) =
      flatten_json (.obj [("a", Json.obj [("b", Json.str "y")])]) ∧
    Json.obj [("a.b", Json.str "y")] ≠
      Json.obj [("a", Json.obj [("b", Json.str "y")])] ∧
    (flatten_json (.obj [("a.b", Json.str "x")])).length = 1 ∧
    (flatten_json (.obj [("a", Json.obj [("b", Json.str "y")])])).length = 1 ∧
    (flatten_json (.obj [("a.b", Json.str "x"),
      ("a", Json.obj [("b", Json.str "y")])])).length = 1 ∧
    assocFind (flatten_json (.obj [("a.b", Json.str "x"),
      ("a", Json.obj [("b", Json.str "y")])])) "a.b" = some "y" := by
  refine ⟨rfl, ?_, rfl, rfl, rfl, rfl⟩
  intro h
  injection h with h1
  simp at h1

end I18nApp